import Mathlib

/-!
Verification development for rlc-bitmap, a run-length-coded bitmap store with
a bounded row cache (src/rlc-bitmap.js).

Modelling conventions.  A dense bit row is a list of naturals (the JavaScript
Uint8Array holds values 0..255); an encoded row is a list of run counts.
Typed-array reads out of range yield none (JavaScript undefined), modelled
with List.get?; typed-array writes out of range are ignored, matching
List.set; storing into a Uint8Array or Uint16Array reduces the value modulo
256 respectively 65536.  The cache capacity field holds a JavaScript number
that can be fractional (height times 0.05); it is modelled as a rational.
The only fractional capacity evaluated concretely in this development is
height 10, where the IEEE double product 10 * 0.05 is exactly 0.5, equal to
the rational.  Each while loop is modelled by structural recursion on an
explicit counter that matches the loop measure exactly on every call made by
the embedded code; the defining equations state the loop body verbatim.
-/

/-- this.rlcEvenRunValue = 0: the bit value of even-position runs. -/
def rlcEvenRunValue : Nat := 0

/-- this.rlcOddRunValue = 1: the bit value of odd-position runs. -/
def rlcOddRunValue : Nat := 1

/-- this.maxRunLength = 65000. -/
def maxRunLength : Nat := 65000

/-- Loop of findRunEnd: while (row[end] === val and end < limit) end++.
The counter k stands for limit - end, so the test end < limit reads 0 < k. -/
def findRunEndGo (row : List Nat) (val : Nat) : Nat → Nat → Nat
  | 0, e => e
  | k + 1, e => if row.get? e = some val then findRunEndGo row val k (e + 1) else e

/-- findRunEnd(row, start): the offset of the first value after start that
does not match row[start], at most maxRunLength positions from start.
The scan begins at end = start + 1 with limit = start + maxRunLength,
hence the initial counter limit - end = maxRunLength - 1. -/
def findRunEnd (row : List Nat) (start : Nat) : Nat :=
  findRunEndGo row (row.getD start 0) (maxRunLength - 1) (start + 1)

/-- Loop of rlcEncode: while (rowi < bitrow.length) push the next run count,
with a zero-length other-color run between segments of an overlong run.
The fuel dominates bitrow.length - rowi; the second component returned is
the final value of rowi. -/
def rlcEncodeGo (bitrow : List Nat) : Nat → Nat → List Nat × Nat
  | 0, rowi => ([], rowi)
  | fuel + 1, rowi =>
    if rowi < bitrow.length then
      let e := findRunEnd bitrow rowi
      let rest := rlcEncodeGo bitrow fuel e
      ((e - rowi) :: (if bitrow.get? e = bitrow.get? rowi then [0] else []) ++ rest.1,
        rest.2)
    else ([], rowi)

/-- rlcEncode before the final Uint16Array conversion: the initial push of 0
when bitrow[0] is not the even-run value (also when the row is empty and
bitrow[0] is undefined), the run loop, and the final push of 0 made when
rowi % 2 === 0 (note: rowi, the scan position, not the number of counts). -/
def rlcEncodePre (bitrow : List Nat) : List Nat :=
  (if bitrow.get? 0 ≠ some rlcEvenRunValue then [0] else []) ++
    (rlcEncodeGo bitrow bitrow.length 0).1 ++
    (if (rlcEncodeGo bitrow bitrow.length 0).2 % 2 = 0 then [0] else [])

/-- rlcEncode(bitrow): run counts, frozen into a Uint16Array. -/
def rlcEncode (bitrow : List Nat) : List Nat :=
  (rlcEncodePre bitrow).map (fun c => c % 65536)

/-- Inner loops of rlcDecode: for (j = 0; j < count; j++) bitrow[biti++] = v.
Uint8Array writes store v % 256 and ignore out-of-range positions. -/
def emitRun (bitrow : List Nat) (biti : Nat) : Nat → Nat → List Nat × Nat
  | 0, _ => (bitrow, biti)
  | c + 1, v => emitRun (bitrow.set biti (v % 256)) (biti + 1) c v

/-- Outer loop of rlcDecode: for (i = 0; i < rlc.length; i += 2) emit
rlc[i] even-run values then rlc[i+1] odd-run values; a missing rlc[i+1]
(undefined) bounds its loop like 0.  The fuel dominates rlc.length - i. -/
def rlcDecodeGo (rlc : List Nat) : Nat → Nat → List Nat → Nat → List Nat
  | 0, _, bitrow, _ => bitrow
  | fuel + 1, i, bitrow, biti =>
    if i < rlc.length then
      let s0 := emitRun bitrow biti (rlc.getD i 0) rlcEvenRunValue
      let s1 := emitRun s0.1 s0.2 (rlc.getD (i + 1) 0) rlcOddRunValue
      rlcDecodeGo rlc fuel (i + 2) s1.1 s1.2
    else bitrow

/-- rlcDecode(rlc): unpack a run-length-coded row into a zero-filled
Uint8Array of the width of the bitmap. -/
def rlcDecode (width : Nat) (rlc : List Nat) : List Nat :=
  rlcDecodeGo rlc rlc.length 0 (List.replicate width 0) 0

/-- Specification-side reading of a count list: alternating runs of the
color c and its opposite. -/
def runsBits (c : Nat) : List Nat → List Nat
  | [] => []
  | n :: rest => List.replicate n c ++ runsBits (1 - c) rest

/-- Sequential writes of a list of values starting at position biti. -/
def writeBits (bitrow : List Nat) (biti : Nat) : List Nat → List Nat
  | [] => bitrow
  | b :: bs => writeBits (bitrow.set biti b) (biti + 1) bs

/-- A dense row of bit values. -/
def BitList (l : List Nat) : Prop := ∀ b ∈ l, b = 0 ∨ b = 1

/-- Error kinds raised by the embedded code: the row bounds failure, the
TypeError raised when the code reads a property of undefined, and the
constructor failure for missing or non-positive dimensions. -/
inductive Err where
  | indexOutOfRange : Err
  | typeError : Err
  | constructionError : Err
  deriving DecidableEq, Repr

/-- One cache entry, cache[n] = rowId n, modified flag, decoded data. -/
structure CacheEntry where
  rowId : Int
  modified : Bool
  data : List Nat
  deriving DecidableEq, Repr

/-- The state of one RlcBitmap object.  The store holds one encoded row per
row index (reading past its end yields none, JavaScript undefined); the
cache object is an association list keyed by row index, kept in insertion
order; cacheRows is the insertion-order queue used to pick eviction victims.
Every operation returns the resulting state next to its result, also on an
error, since a JavaScript exception leaves the mutations made so far. -/
structure Bitmap where
  width : Nat
  height : Nat
  cacheMaxItems : ℚ
  store : List (List Nat)
  cache : List (Int × CacheEntry)
  cacheRows : List Int
  deriving DecidableEq, Repr

/-- Property read this.cache[k] of the cache object. -/
def mapGet : List (Int × CacheEntry) → Int → Option CacheEntry
  | [], _ => none
  | p :: rest, k => if p.1 = k then some p.2 else mapGet rest k

/-- Property removal delete this.cache[k]. -/
def mapDel : List (Int × CacheEntry) → Int → List (Int × CacheEntry)
  | [], _ => []
  | p :: rest, k => if p.1 = k then mapDel rest k else p :: mapDel rest k

/-- In-place mutation of the entry stored under an existing key, as done by
aliased writes through the array returned from getRow; the position of the
key in the object is unchanged. -/
def mapUpd : List (Int × CacheEntry) → Int → CacheEntry → List (Int × CacheEntry)
  | [], _, _ => []
  | p :: rest, k, v => if p.1 = k then (k, v) :: mapUpd rest k v else p :: mapUpd rest k v

/-- Typed-array read row[x]: undefined outside 0 <= x < row.length. -/
def tyGet (row : List Nat) (x : Int) : Option Nat :=
  if 0 ≤ x then row.get? x.toNat else none

/-- Typed-array write row[x] = v: ignored outside the bounds, stores v % 256. -/
def tySet (row : List Nat) (x : Int) (v : Nat) : List Nat :=
  if 0 ≤ x then row.set x.toNat (v % 256) else row

/-- Loop of freeCacheSpace: while (cacheRows.length + nitems > cacheMaxItems)
shift the oldest row id off cacheRows, delete its cache entry, and re-encode
it into the store when modified.  Shifting an empty queue yields undefined,
and reading the modified property of the absent entry cache[undefined] throws
a TypeError.  The fuel dominates cacheRows.length + 1, the largest possible
number of loop iterations plus the final test. -/
def freeCacheSpaceGo (nitems : Nat) : Nat → Bitmap → Except Err Unit × Bitmap
  | 0, bm => (.ok (), bm)
  | fuel + 1, bm =>
    if ((bm.cacheRows.length + nitems : Nat) : ℚ) > bm.cacheMaxItems then
      match bm.cacheRows with
      | [] => (.error .typeError, bm)
      | rowId :: rest =>
        match mapGet bm.cache rowId with
        | none => (.error .typeError,
            { bm with cacheRows := rest, cache := mapDel bm.cache rowId })
        | some row =>
          let bm1 := { bm with cacheRows := rest, cache := mapDel bm.cache rowId }
          let bm2 := if row.modified then
              { bm1 with store := bm1.store.set rowId.toNat (rlcEncode row.data) }
            else bm1
          freeCacheSpaceGo nitems fuel bm2
    else (.ok (), bm)

/-- freeCacheSpace(nitems) from rlc-bitmap.js. -/
def freeCacheSpace (bm : Bitmap) (nitems : Nat) : Except Err Unit × Bitmap :=
  freeCacheSpaceGo nitems (bm.cacheRows.length + 1) bm

/-- getRow(n): bounds check n < 0 or n > height (note: height itself passes),
then return the cached decoded row, or free cache space, decode the stored
row and insert it.  At n = height the stored row is undefined and rlcDecode
throws a TypeError reading its length. -/
def bmGetRow (bm : Bitmap) (n : Int) : Except Err (List Nat) × Bitmap :=
  if n < 0 ∨ (bm.height : Int) < n then (.error .indexOutOfRange, bm)
  else
    match mapGet bm.cache n with
    | some e => (.ok e.data, bm)
    | none =>
      match freeCacheSpace bm 1 with
      | (.error err, bm1) => (.error err, bm1)
      | (.ok _, bm1) =>
        match bm1.store.get? n.toNat with
        | none => (.error .typeError, bm1)
        | some rlc =>
          let data := rlcDecode bm1.width rlc
          (.ok data,
            { bm1 with cache := bm1.cache ++ [(n, ⟨n, false, data⟩)],
                       cacheRows := bm1.cacheRows ++ [n] })

/-- get(x, y): fetch the row and read row[x].  No bounds check on x. -/
def bmGet (bm : Bitmap) (x y : Int) : Except Err (Option Nat) × Bitmap :=
  match bmGetRow bm y with
  | (.error e, bm1) => (.error e, bm1)
  | (.ok row, bm1) => (.ok (tyGet row x), bm1)

/-- set(x, y, onOff): fetch the row, write row[x] = onOff through the alias
into the cache entry, and mark the entry modified.  No bounds check on x. -/
def bmSet (bm : Bitmap) (x y : Int) (onOff : Nat) : Except Err Unit × Bitmap :=
  match bmGetRow bm y with
  | (.error e, bm1) => (.error e, bm1)
  | (.ok row, bm1) =>
    match mapGet bm1.cache y with
    | some e => (.ok (),
        { bm1 with cache := mapUpd bm1.cache y { e with data := tySet row x onOff,
                                                        modified := true } })
    | none => (.ok (), bm1)

/-- Loop of flushChanges: for (i = 0; i < cacheRows.length; i++) read
this.cache[i] (the loop index used directly as the cache key) and, when
modified, re-encode it into store[i].  Reading the modified property of an
absent entry throws a TypeError; the modified flag is never cleared.  The
counter is the number of remaining iterations. -/
def flushLoop : Nat → Nat → Bitmap → Except Err Unit × Bitmap
  | 0, _, bm => (.ok (), bm)
  | remaining + 1, i, bm =>
    match mapGet bm.cache (i : Int) with
    | none => (.error .typeError, bm)
    | some row =>
      let bm1 := if row.modified then
          { bm with store := bm.store.set i (rlcEncode row.data) }
        else bm
      flushLoop remaining (i + 1) bm1

/-- flushChanges() from rlc-bitmap.js. -/
def bmFlushChanges (bm : Bitmap) : Except Err Unit × Bitmap :=
  flushLoop bm.cacheRows.length 0 bm

/-- The state built by the constructor once its checks passed: every store
row holds the encoding of a zero-filled bit row (the constructor encodes the
same blank row once per row index; the cache starts empty, so the cache
branch of setRow never fires during construction). -/
def mkBitmapRaw (w h : Nat) (cmi : ℚ) : Bitmap where
  width := w
  height := h
  cacheMaxItems := cmi
  store := List.replicate h (rlcEncode (List.replicate w 0))
  cache := []
  cacheRows := []

/-- The default cache capacity, height * .05, as the exact rational; the
lemma defaultCacheMax_eq below restates it as the product. -/
def defaultCacheMax (h : Nat) : ℚ := mkRat (5 * h) 100

/-- new RlcBitmap(options): throw unless height > 0 and width > 0, then set
cacheMaxItems = options.cacheMaxItems || height * .05 (the JavaScript or
takes the default when the option is absent or zero) and fill the store. -/
def mkBitmap (width height : Int) (cacheMaxItems : Option ℚ) : Except Err Bitmap :=
  if ¬ (0 < height) ∨ ¬ (0 < width) then .error .constructionError
  else
    .ok (mkBitmapRaw width.toNat height.toNat
      (match cacheMaxItems with
        | some c => if c ≠ 0 then c else defaultCacheMax height.toNat
        | none => defaultCacheMax height.toNat))

/-- One public operation on a bitmap. -/
inductive Op where
  | get : Int → Int → Op
  | set : Int → Int → Nat → Op
  | flush : Op
  deriving DecidableEq, Repr

/-- The state reached after one operation (its result discarded). -/
def applyOp (bm : Bitmap) : Op → Bitmap
  | .get x y => (bmGet bm x y).2
  | .set x y v => (bmSet bm x y v).2
  | .flush => (bmFlushChanges bm).2

/-- The state reached after a sequence of operations. -/
def runOps (bm : Bitmap) (ops : List Op) : Bitmap := ops.foldl applyOp bm

/-- Structural well-formedness of a bitmap state: the cache object holds
exactly the keys queued in cacheRows, in queue order; the queue has no
duplicates and only non-negative row ids; the store has one encoded row per
row index; every cached row has the dense width of the bitmap; and a
non-empty cache implies a capacity of at least one (with a smaller capacity
nothing can ever be inserted, since freeCacheSpace then always throws). -/
def BmInv (bm : Bitmap) : Prop :=
  bm.cache.map Prod.fst = bm.cacheRows ∧
  bm.cacheRows.Nodup ∧
  bm.store.length = bm.height ∧
  (∀ k ∈ bm.cacheRows, 0 ≤ k) ∧
  (∀ p ∈ bm.cache, p.2.data.length = bm.width) ∧
  (1 ≤ bm.cacheMaxItems ∨ bm.cacheRows = [])

/-- Every cached row consists of bit values. -/
def CacheBits (bm : Bitmap) : Prop := ∀ p ∈ bm.cache, BitList p.2.data

instance (l : List Nat) : Decidable (BitList l) := by
  unfold BitList
  infer_instance

instance (bm : Bitmap) : Decidable (BmInv bm) := by
  unfold BmInv
  infer_instance

instance (bm : Bitmap) : Decidable (CacheBits bm) := by
  unfold CacheBits
  infer_instance

/-- What a later fresh read of position (x, y) must see after set(x, y, v):
either the row is cached, marked modified, holding v at x, or it is not
cached and the stored encoding decodes to a row holding v at x. -/
def Tracked (bm : Bitmap) (x y : Int) (v : Nat) : Prop :=
  match mapGet bm.cache y with
  | some e => e.modified = true ∧ tyGet e.data x = some v
  | none => ∃ rlc, bm.store.get? y.toNat = some rlc ∧
      tyGet (rlcDecode bm.width rlc) x = some v

/-- The operations allowed while tracking position (x, y): reads and writes
of other rows, and flushChanges; writes store bit values. -/
def OpAvoids (op : Op) (y : Int) : Prop :=
  match op with
  | .get _ y2 => y2 ≠ y
  | .set _ y2 v2 => y2 ≠ y ∧ (v2 = 0 ∨ v2 = 1)
  | .flush => True

/-- Operations that touch only rows in the given list (no flush). -/
def OpTargets (op : Op) (rows : List Int) : Prop :=
  match op with
  | .get _ y => y ∈ rows
  | .set _ y _ => y ∈ rows
  | .flush => False

example : rlcEncode [0, 0, 0, 1, 0, 0, 0, 0] = [3, 1, 4, 0] := by decide
example : rlcDecode 8 [3, 1, 4, 0] = [0, 0, 0, 1, 0, 0, 0, 0] := by decide
example : rlcEncode [1, 1, 1, 1] = [0, 4, 0] := by decide
example : rlcDecode 4 [0, 4, 0] = [1, 1, 1, 1] := by decide
example : rlcEncode [] = [0, 0] := by decide

example : mkBitmap 8 1 (some 5) = .ok (mkBitmapRaw 8 1 5) := rfl
example : (bmGet (mkBitmapRaw 8 1 5) 8 0).1 = .ok none := rfl
example : (bmGet (mkBitmapRaw 8 1 5) 0 0).1 = .ok (some 0) := rfl
example : (bmFlushChanges (bmSet (mkBitmapRaw 4 10 2) 0 5 1).2).1 = .error .typeError := rfl
example : (bmSet (mkBitmapRaw 4 10 (defaultCacheMax 10)) 0 0 1).1 = .error .typeError := rfl
example : mkBitmap 4 10 none = .ok (mkBitmapRaw 4 10 (defaultCacheMax 10)) := rfl
example : defaultCacheMax 10 = mkRat 1 2 := rfl
example :
    (bmGet (runOps (mkBitmapRaw 4 10 1) [.set 0 5 1, .get 0 0]) 0 5).1 = .ok (some 1) := rfl

theorem findRunEndGo_ge (row : List Nat) (val : Nat) :
    ∀ k e, e ≤ findRunEndGo row val k e := by
  intro k
  induction k with
  | zero => intro e; simp [findRunEndGo]
  | succ k ih =>
    intro e
    rw [findRunEndGo]
    split
    · exact le_trans (Nat.le_succ e) (ih (e + 1))
    · exact le_refl e

theorem findRunEndGo_le_add (row : List Nat) (val : Nat) :
    ∀ k e, findRunEndGo row val k e ≤ e + k := by
  intro k
  induction k with
  | zero => intro e; simp [findRunEndGo]
  | succ k ih =>
    intro e
    rw [findRunEndGo]
    split
    · exact le_trans (ih (e + 1)) (by omega)
    · omega

theorem findRunEndGo_le_length (row : List Nat) (val : Nat) :
    ∀ k e, e ≤ row.length → findRunEndGo row val k e ≤ row.length := by
  intro k
  induction k with
  | zero => intro e he; simpa [findRunEndGo] using he
  | succ k ih =>
    intro e he
    rw [findRunEndGo]
    split
    · rename_i hval
      have hlt : e < row.length := by
        by_contra hc
        rw [List.get?_eq_none.mpr (by omega)] at hval
        cases hval
      exact ih (e + 1) hlt
    · exact he

theorem findRunEndGo_run (row : List Nat) (val : Nat) :
    ∀ k e j, e ≤ j → j < findRunEndGo row val k e → row.get? j = some val := by
  intro k
  induction k with
  | zero =>
    intro e j h1 h2
    rw [findRunEndGo] at h2
    omega
  | succ k ih =>
    intro e j h1 h2
    rw [findRunEndGo] at h2
    split at h2
    · rename_i hval
      rcases Nat.eq_or_lt_of_le h1 with h | h
      · exact h ▸ hval
      · exact ih (e + 1) j h h2
    · omega

theorem findRunEnd_gt (row : List Nat) (start : Nat) : start < findRunEnd row start :=
  lt_of_lt_of_le (Nat.lt_succ_self start) (findRunEndGo_ge row _ _ (start + 1))

theorem findRunEnd_le_max (row : List Nat) (start : Nat) :
    findRunEnd row start ≤ start + maxRunLength := by
  have h := findRunEndGo_le_add row (row.getD start 0) (maxRunLength - 1) (start + 1)
  unfold findRunEnd
  have : (1 : Nat) ≤ maxRunLength := by norm_num [maxRunLength]
  omega

theorem findRunEnd_le_length (row : List Nat) (start : Nat) (h : start < row.length) :
    findRunEnd row start ≤ row.length :=
  findRunEndGo_le_length row _ _ (start + 1) h

theorem findRunEnd_run (row : List Nat) (start : Nat) (h : start < row.length) :
    ∀ j, start ≤ j → j < findRunEnd row start → row.get? j = some (row.getD start 0) := by
  intro j h1 h2
  rcases Nat.eq_or_lt_of_le h1 with rfl | h1
  · rw [List.getD_eq_get?, List.get?_eq_get h]
    rfl
  · exact findRunEndGo_run row _ _ (start + 1) j h1 h2

theorem drop_eq_replicate_append (row : List Nat) (c : Nat) :
    ∀ n s, s + n ≤ row.length →
    (∀ j, s ≤ j → j < s + n → row.get? j = some c) →
    row.drop s = List.replicate n c ++ row.drop (s + n) := by
  intro n
  induction n with
  | zero => intro s _ _; simp
  | succ n ih =>
    intro s hlen hrun
    have hs : s < row.length := by omega
    have hget : row.get? s = some c := hrun s le_rfl (by omega)
    have hsv : row.get ⟨s, hs⟩ = c := by
      rw [List.get?_eq_get hs] at hget
      exact Option.some.inj hget
    have hdrop : row.drop s = c :: row.drop (s + 1) := by
      rw [List.drop_eq_getElem_cons hs]
      simp [← hsv, List.get_eq_getElem]
    rw [hdrop, ih (s + 1) (by omega) (fun j hj1 hj2 => hrun j (by omega) (by omega))]
    have : s + 1 + n = s + (n + 1) := by omega
    rw [this, List.replicate_succ]
    rfl

theorem rlcEncodeGo_at_end (row : List Nat) :
    ∀ fuel s, row.length ≤ s → rlcEncodeGo row fuel s = ([], s) := by
  intro fuel s h
  cases fuel with
  | zero => rfl
  | succ fuel => rw [rlcEncodeGo]; simp [Nat.not_lt.mpr h]

theorem rlcEncodeGo_snd (row : List Nat) :
    ∀ fuel s, s ≤ row.length → row.length ≤ s + fuel →
    (rlcEncodeGo row fuel s).2 = row.length := by
  intro fuel
  induction fuel with
  | zero =>
    intro s h1 h2
    have : s = row.length := by omega
    subst this
    rfl
  | succ fuel ih =>
    intro s h1 h2
    rw [rlcEncodeGo]
    by_cases hlt : s < row.length
    · simp only [if_pos hlt]
      have hgt := findRunEnd_gt row s
      have hle := findRunEnd_le_length row s hlt
      exact ih (findRunEnd row s) hle (by omega)
    · simp only [if_neg hlt]
      omega

theorem rlcEncodeGo_bound (row : List Nat) :
    ∀ fuel s c, c ∈ (rlcEncodeGo row fuel s).1 → c ≤ maxRunLength := by
  intro fuel
  induction fuel with
  | zero => intro s c hc; simp [rlcEncodeGo] at hc
  | succ fuel ih =>
    intro s c hc
    rw [rlcEncodeGo] at hc
    by_cases hlt : s < row.length
    · simp only [if_pos hlt] at hc
      rcases List.mem_cons.mp hc with hc1 | hc2
      · have := findRunEnd_le_max row s
        omega
      · rcases List.mem_append.mp hc2 with hc3 | hc3
        · split at hc3 <;> simp_all
        · exact ih _ c hc3
    · simp [if_neg hlt] at hc

theorem runsBits_append_zero : ∀ (l : List Nat) (c : Nat), runsBits c (l ++ [0]) = runsBits c l := by
  intro l
  induction l with
  | nil => intro c; simp [runsBits]
  | cons n rest ih => intro c; simp [runsBits, ih]

theorem rlcEncodeGo_runs (row : List Nat) (hb : BitList row) :
    ∀ fuel s, s ≤ row.length → row.length ≤ s + fuel →
    runsBits (row.getD s 0) (rlcEncodeGo row fuel s).1 = row.drop s := by
  intro fuel
  induction fuel with
  | zero =>
    intro s h1 h2
    have : s = row.length := by omega
    subst this
    simp [rlcEncodeGo, runsBits]
  | succ fuel ih =>
    intro s h1 h2
    by_cases hlt : s < row.length
    · have hgt : s < findRunEnd row s := findRunEnd_gt row s
      have hle : findRunEnd row s ≤ row.length := findRunEnd_le_length row s hlt
      have hrun : ∀ j, s ≤ j → j < findRunEnd row s →
          row.get? j = some (row.getD s 0) := findRunEnd_run row s hlt
      have hsome : row.get? s = some (row.getD s 0) := hrun s le_rfl hgt
      have hvbit : row.getD s 0 = 0 ∨ row.getD s 0 = 1 := hb _ (List.get?_mem hsome)
      have hseg : row.drop s =
          List.replicate (findRunEnd row s - s) (row.getD s 0) ++
            row.drop (findRunEnd row s) := by
        have h3 := drop_eq_replicate_append row (row.getD s 0) (findRunEnd row s - s) s
          (by omega) (fun j hj1 hj2 => hrun j hj1 (by omega))
        rwa [show s + (findRunEnd row s - s) = findRunEnd row s by omega] at h3
      rw [rlcEncodeGo]
      simp only [if_pos hlt]
      by_cases hc : row.get? (findRunEnd row s) = row.get? s
      · rw [if_pos hc]
        have hesome : row.get? (findRunEnd row s) = some (row.getD s 0) := hc.trans hsome
        have helt : findRunEnd row s < row.length := by
          by_contra hx
          rw [List.get?_eq_none.mpr (by omega)] at hesome
          cases hesome
        have hed : row.getD (findRunEnd row s) 0 = row.getD s 0 := by
          rw [List.getD_eq_get?, hesome]
          rfl
        simp only [runsBits, List.cons_append, List.singleton_append,
          List.replicate_zero, List.nil_append]
        rw [hseg]
        congr 1
        have hflip : 1 - (1 - row.getD s 0) = row.getD s 0 := by
          rcases hvbit with h | h <;> rw [h]
        rw [hflip, ← hed]
        exact ih (findRunEnd row s) hle (by omega)
      · rw [if_neg hc]
        simp only [runsBits, List.nil_append, List.cons_append]
        rw [hseg]
        congr 1
        rcases Nat.eq_or_lt_of_le hle with heq | helt
        · rw [heq, rlcEncodeGo_at_end row fuel row.length le_rfl]
          simp [runsBits]
        · have hesome : row.get? (findRunEnd row s) =
              some (row.getD (findRunEnd row s) 0) := by
            rw [List.getD_eq_get?, List.get?_eq_get helt]
            rfl
          have hwbit : row.getD (findRunEnd row s) 0 = 0 ∨
              row.getD (findRunEnd row s) 0 = 1 := hb _ (List.get?_mem hesome)
          have hne : row.getD (findRunEnd row s) 0 ≠ row.getD s 0 := by
            intro hx
            exact hc (by rw [hesome, hsome, hx])
          have hflip : 1 - row.getD s 0 = row.getD (findRunEnd row s) 0 := by
            rcases hvbit with h | h <;> rcases hwbit with h4 | h4 <;> omega
          rw [hflip]
          exact ih (findRunEnd row s) hle (by omega)
    · have hs : s = row.length := by omega
      subst hs
      rw [rlcEncodeGo_at_end row _ _ le_rfl]
      simp [runsBits]

theorem rlcEncodePre_runs (row : List Nat) (hb : BitList row) :
    runsBits 0 (rlcEncodePre row) = row := by
  unfold rlcEncodePre
  have htail : ∀ (l : List Nat),
      runsBits 0 (l ++ (if (rlcEncodeGo row row.length 0).2 % 2 = 0 then [0] else [])) =
        runsBits 0 l := by
    intro l
    split
    · exact runsBits_append_zero l 0
    · simp
  rw [htail]
  cases row with
  | nil => simp [rlcEncodeGo, runsBits, rlcEvenRunValue]
  | cons b tl =>
    have hmain := rlcEncodeGo_runs (b :: tl) hb (b :: tl).length 0 (by omega) (by omega)
    simp only [List.drop_zero] at hmain
    rcases hb b (by simp) with rfl | rfl
    · have hcond : ¬ ((0 :: tl).get? 0 ≠ some rlcEvenRunValue) := by
        simp [rlcEvenRunValue]
      rw [if_neg hcond, List.nil_append]
      simpa using hmain
    · have hcond : ((1 :: tl).get? 0 ≠ some rlcEvenRunValue) := by
        simp [rlcEvenRunValue]
      rw [if_pos hcond, List.singleton_append]
      simp only [runsBits, List.replicate_zero, List.nil_append]
      simpa using hmain

theorem rlcEncodePre_bound (row : List Nat) :
    ∀ c ∈ rlcEncodePre row, c ≤ maxRunLength := by
  intro c hc
  unfold rlcEncodePre at hc
  simp only [List.mem_append] at hc
  rcases hc with (hc | hc) | hc
  · split at hc <;> simp_all
  · exact rlcEncodeGo_bound row _ _ c hc
  · split at hc <;> simp_all

theorem rlcEncode_eq_pre (row : List Nat) : rlcEncode row = rlcEncodePre row := by
  unfold rlcEncode
  have : ∀ c ∈ rlcEncodePre row, c % 65536 = c := by
    intro c hc
    have := rlcEncodePre_bound row c hc
    exact Nat.mod_eq_of_lt (by norm_num [maxRunLength] at this ⊢; omega)
  calc (rlcEncodePre row).map (fun c => c % 65536)
      = (rlcEncodePre row).map id := List.map_congr_left this
    _ = rlcEncodePre row := List.map_id _

theorem emitRun_fst : ∀ (n : Nat) (bitrow : List Nat) (biti v : Nat),
    (emitRun bitrow biti n v).1 = writeBits bitrow biti (List.replicate n (v % 256)) := by
  intro n
  induction n with
  | zero => intro bitrow biti v; rfl
  | succ n ih =>
    intro bitrow biti v
    rw [emitRun, List.replicate_succ, writeBits]
    exact ih _ _ _

theorem emitRun_snd : ∀ (n : Nat) (bitrow : List Nat) (biti v : Nat),
    (emitRun bitrow biti n v).2 = biti + n := by
  intro n
  induction n with
  | zero => intro bitrow biti v; rfl
  | succ n ih =>
    intro bitrow biti v
    rw [emitRun, ih]
    omega

theorem writeBits_append : ∀ (u w bitrow : List Nat) (biti : Nat),
    writeBits bitrow biti (u ++ w) =
      writeBits (writeBits bitrow biti u) (biti + u.length) w := by
  intro u
  induction u with
  | nil => intro w bitrow biti; simp [writeBits]
  | cons b bs ih =>
    intro w bitrow biti
    rw [List.cons_append, writeBits, ih, writeBits]
    have : biti + 1 + bs.length = biti + (b :: bs).length := by
      simp [List.length_cons]
      omega
    rw [this]

theorem writeBits_length : ∀ (bits l : List Nat) (i : Nat),
    (writeBits l i bits).length = l.length := by
  intro bits
  induction bits with
  | nil => intro l i; rfl
  | cons b bs ih =>
    intro l i
    rw [writeBits, ih, List.length_set]

theorem writeBits_cons_succ : ∀ (bits : List Nat) (x : Nat) (l : List Nat) (i : Nat),
    writeBits (x :: l) (i + 1) bits = x :: writeBits l i bits := by
  intro bits
  induction bits with
  | nil => intro x l i; rfl
  | cons b bs ih =>
    intro x l i
    simp only [writeBits, List.set_cons_succ]
    exact ih _ _ _

theorem writeBits_full : ∀ (bits l : List Nat), bits.length = l.length →
    writeBits l 0 bits = bits := by
  intro bits
  induction bits with
  | nil =>
    intro l h
    have hl : l = [] := by
      cases l
      · rfl
      · simp at h
    subst hl
    rfl
  | cons b bs ih =>
    intro l h
    cases l with
    | nil => simp at h
    | cons x l =>
      rw [writeBits, List.set_cons_zero, writeBits_cons_succ, ih l (by simpa using h)]

theorem rlcDecodeGo_eq (rlc : List Nat) :
    ∀ fuel i bitrow biti, rlc.length ≤ i + fuel →
    rlcDecodeGo rlc fuel i bitrow biti =
      writeBits bitrow biti (runsBits 0 (rlc.drop i)) := by
  intro fuel
  induction fuel with
  | zero =>
    intro i bitrow biti h
    rw [rlcDecodeGo, List.drop_eq_nil_of_le (by omega)]
    rfl
  | succ fuel ih =>
    intro i bitrow biti h
    rw [rlcDecodeGo]
    by_cases hi : i < rlc.length
    · simp only [if_pos hi]
      have hgetD : rlc.getD i 0 = rlc[i] := by
        rw [List.getD_eq_get?, List.get?_eq_get hi]
        rfl
      have hrun1 : runsBits 0 (rlc.drop i) =
          List.replicate (rlc.getD i 0) 0 ++
            (List.replicate (rlc.getD (i + 1) 0) 1 ++ runsBits 0 (rlc.drop (i + 2))) := by
        rw [List.drop_eq_getElem_cons hi, ← hgetD]
        simp only [runsBits]
        congr 1
        by_cases hi1 : i + 1 < rlc.length
        · have hgetD1 : rlc.getD (i + 1) 0 = rlc[i + 1] := by
            rw [List.getD_eq_get?, List.get?_eq_get hi1]
            rfl
          rw [List.drop_eq_getElem_cons hi1, ← hgetD1]
          simp only [runsBits]
        · have h1 : rlc.length ≤ i + 1 := by omega
          have hz : rlc.getD (i + 1) 0 = 0 := by
            rw [List.getD_eq_get?, List.get?_eq_none.mpr h1]
            rfl
          rw [List.drop_eq_nil_of_le h1, List.drop_eq_nil_of_le (by omega), hz]
          simp [runsBits]
      rw [hrun1, ih (i + 2) _ _ (by omega)]
      rw [emitRun_fst, emitRun_snd, emitRun_fst, emitRun_snd]
      rw [writeBits_append, writeBits_append, List.length_replicate, List.length_replicate]
      norm_num [rlcEvenRunValue, rlcOddRunValue]
    · simp only [if_neg hi]
      rw [List.drop_eq_nil_of_le (by omega)]
      rfl

theorem rlcDecode_runs (width : Nat) (rlc : List Nat) :
    rlcDecode width rlc = writeBits (List.replicate width 0) 0 (runsBits 0 rlc) := by
  unfold rlcDecode
  rw [rlcDecodeGo_eq rlc rlc.length 0 _ 0 (by omega)]
  simp

/-- The round-trip law of the codec: decoding at the original width undoes
encoding, for every dense row of bit values. -/
theorem rlc_roundtrip (row : List Nat) (hb : BitList row) :
    rlcDecode row.length (rlcEncode row) = row := by
  rw [rlcEncode_eq_pre, rlcDecode_runs, rlcEncodePre_runs row hb]
  exact writeBits_full row (List.replicate row.length 0) (by simp)

theorem rlcDecode_length (width : Nat) (rlc : List Nat) :
    (rlcDecode width rlc).length = width := by
  rw [rlcDecode_runs, writeBits_length]
  simp

theorem BitList_set (l : List Nat) (i b : Nat) (hl : BitList l) (hb : b = 0 ∨ b = 1) :
    BitList (l.set i b) := by
  intro c hc
  rcases List.mem_or_eq_of_mem_set hc with h | h
  · exact hl c h
  · subst h
    exact hb

theorem BitList_writeBits : ∀ (bits l : List Nat) (i : Nat),
    BitList l → BitList bits → BitList (writeBits l i bits) := by
  intro bits
  induction bits with
  | nil => intro l i hl _; exact hl
  | cons b bs ih =>
    intro l i hl hb
    rw [writeBits]
    exact ih _ _ (BitList_set l i b hl (hb b (by simp))) (fun c hc => hb c (by simp [hc]))

theorem BitList_runsBits : ∀ (l : List Nat) (c : Nat), c = 0 ∨ c = 1 →
    BitList (runsBits c l) := by
  intro l
  induction l with
  | nil =>
    intro c _ b hb
    simp [runsBits] at hb
  | cons n rest ih =>
    intro c hc b hb
    simp only [runsBits] at hb
    rcases List.mem_append.mp hb with h | h
    · have := List.eq_of_mem_replicate h
      subst this
      exact hc
    · have h1c : 1 - c = 0 ∨ 1 - c = 1 := by rcases hc with rfl | rfl <;> simp
      exact ih (1 - c) h1c b h

theorem rlcDecode_bits (width : Nat) (rlc : List Nat) : BitList (rlcDecode width rlc) := by
  rw [rlcDecode_runs]
  refine BitList_writeBits _ _ _ ?_ ?_
  · intro b hb
    left
    exact List.eq_of_mem_replicate hb
  · exact BitList_runsBits rlc 0 (Or.inl rfl)

theorem rlcEncode_bound (row : List Nat) : ∀ c ∈ rlcEncode row, c ≤ maxRunLength := by
  rw [rlcEncode_eq_pre]
  exact rlcEncodePre_bound row

theorem defaultCacheMax_eq (h : Nat) : defaultCacheMax h = (h : ℚ) * (5 / 100) := by
  unfold defaultCacheMax
  rw [Rat.mkRat_eq_div]
  push_cast
  ring

theorem mapGet_eq_none_iff (m : List (Int × CacheEntry)) (k : Int) :
    mapGet m k = none ↔ k ∉ m.map Prod.fst := by
  induction m with
  | nil => simp [mapGet]
  | cons p rest ih =>
    obtain ⟨a, e⟩ := p
    simp only [mapGet, List.map_cons, List.mem_cons]
    by_cases h : a = k
    · simp [h]
    · simp [h, ih, Ne.symm h]

theorem mapGet_mem (m : List (Int × CacheEntry)) (k : Int) (e : CacheEntry)
    (h : mapGet m k = some e) : (k, e) ∈ m := by
  induction m with
  | nil => simp [mapGet] at h
  | cons p rest ih =>
    obtain ⟨a, e2⟩ := p
    simp only [mapGet] at h
    by_cases hp : a = k
    · rw [if_pos hp] at h
      have he : e2 = e := by simpa using h
      subst hp
      subst he
      exact List.mem_cons_self _ _
    · rw [if_neg hp] at h
      exact List.mem_cons_of_mem _ (ih h)

theorem mapGet_append_of_none (m m2 : List (Int × CacheEntry)) (k : Int)
    (h : mapGet m k = none) : mapGet (m ++ m2) k = mapGet m2 k := by
  induction m with
  | nil => simp
  | cons p rest ih =>
    obtain ⟨a, e⟩ := p
    simp only [mapGet] at h
    rw [List.cons_append]
    simp only [mapGet]
    by_cases hp : a = k
    · rw [if_pos hp] at h
      cases h
    · rw [if_neg hp] at h ⊢
      exact ih h

theorem mapGet_append_of_some (m m2 : List (Int × CacheEntry)) (k : Int) (e : CacheEntry)
    (h : mapGet m k = some e) : mapGet (m ++ m2) k = some e := by
  induction m with
  | nil => simp [mapGet] at h
  | cons p rest ih =>
    obtain ⟨a, e2⟩ := p
    simp only [mapGet] at h
    rw [List.cons_append]
    simp only [mapGet]
    by_cases hp : a = k
    · rwa [if_pos hp] at h ⊢
    · rw [if_neg hp] at h ⊢
      exact ih h

theorem mapDel_of_not_mem (m : List (Int × CacheEntry)) (k : Int)
    (h : k ∉ m.map Prod.fst) : mapDel m k = m := by
  induction m with
  | nil => rfl
  | cons p rest ih =>
    obtain ⟨a, e⟩ := p
    simp only [List.map_cons, List.mem_cons] at h
    push_neg at h
    simp only [mapDel]
    rw [if_neg (fun hx => h.1 hx.symm), ih h.2]

theorem mapDel_keys_of_head (m : List (Int × CacheEntry)) (k : Int) (rest : List Int)
    (hkeys : m.map Prod.fst = k :: rest) (hnot : k ∉ rest) :
    (mapDel m k).map Prod.fst = rest := by
  cases m with
  | nil => simp at hkeys
  | cons p m2 =>
    obtain ⟨a, e⟩ := p
    simp only [List.map_cons, List.cons.injEq] at hkeys
    simp only [mapDel]
    rw [if_pos hkeys.1, mapDel_of_not_mem m2 k (by rw [hkeys.2]; exact hnot)]
    exact hkeys.2

theorem mapGet_mapDel_self (m : List (Int × CacheEntry)) (k : Int) :
    mapGet (mapDel m k) k = none := by
  induction m with
  | nil => rfl
  | cons p rest ih =>
    obtain ⟨a, e⟩ := p
    simp only [mapDel]
    by_cases hp : a = k
    · rwa [if_pos hp]
    · rw [if_neg hp]
      simp only [mapGet]
      rw [if_neg hp]
      exact ih

theorem mapGet_mapDel_ne (m : List (Int × CacheEntry)) (k k2 : Int) (h : k2 ≠ k) :
    mapGet (mapDel m k) k2 = mapGet m k2 := by
  induction m with
  | nil => rfl
  | cons p rest ih =>
    obtain ⟨a, e⟩ := p
    simp only [mapDel, mapGet]
    by_cases hp : a = k
    · rw [if_pos hp, ih, if_neg (by rw [hp]; exact fun hx => h hx.symm)]
    · rw [if_neg hp]
      simp only [mapGet]
      by_cases hp2 : a = k2
      · rw [if_pos hp2, if_pos hp2]
      · rw [if_neg hp2, if_neg hp2, ih]

theorem mapDel_subset (m : List (Int × CacheEntry)) (k : Int) :
    ∀ p ∈ mapDel m k, p ∈ m := by
  induction m with
  | nil => intro p hp; simp [mapDel] at hp
  | cons q rest ih =>
    intro p hp
    obtain ⟨a, e⟩ := q
    simp only [mapDel] at hp
    by_cases hq : a = k
    · rw [if_pos hq] at hp
      exact List.mem_cons_of_mem _ (ih p hp)
    · rw [if_neg hq] at hp
      rcases List.mem_cons.mp hp with rfl | hp2
      · exact List.mem_cons_self _ _
      · exact List.mem_cons_of_mem _ (ih p hp2)

theorem mapUpd_keys (m : List (Int × CacheEntry)) (k : Int) (v : CacheEntry) :
    (mapUpd m k v).map Prod.fst = m.map Prod.fst := by
  induction m with
  | nil => rfl
  | cons p rest ih =>
    obtain ⟨a, e⟩ := p
    simp only [mapUpd]
    by_cases hp : a = k
    · rw [if_pos hp]
      simp only [List.map_cons, ih]
      rw [hp]
    · rw [if_neg hp]
      simp only [List.map_cons, ih]

theorem mapGet_mapUpd_self (m : List (Int × CacheEntry)) (k : Int) (v : CacheEntry)
    (e : CacheEntry) (h : mapGet m k = some e) : mapGet (mapUpd m k v) k = some v := by
  induction m with
  | nil => simp [mapGet] at h
  | cons p rest ih =>
    obtain ⟨a, e2⟩ := p
    simp only [mapGet] at h
    simp only [mapUpd]
    by_cases hp : a = k
    · rw [if_pos hp]
      simp [mapGet]
    · rw [if_neg hp] at h
      rw [if_neg hp]
      simp only [mapGet]
      rw [if_neg hp]
      exact ih h

theorem mapGet_mapUpd_ne (m : List (Int × CacheEntry)) (k k2 : Int) (v : CacheEntry)
    (h : k2 ≠ k) : mapGet (mapUpd m k v) k2 = mapGet m k2 := by
  induction m with
  | nil => rfl
  | cons p rest ih =>
    obtain ⟨a, e⟩ := p
    simp only [mapUpd, mapGet]
    by_cases hp : a = k
    · subst hp
      rw [if_pos rfl, if_neg (fun hx : a = k2 => h hx.symm)]
      simp only [mapGet]
      rw [if_neg (fun hx : a = k2 => h hx.symm), ih]
    · rw [if_neg hp]
      simp only [mapGet]
      by_cases hp2 : a = k2
      · rw [if_pos hp2, if_pos hp2]
      · rw [if_neg hp2, if_neg hp2, ih]

theorem mapUpd_mem (m : List (Int × CacheEntry)) (k : Int) (v : CacheEntry) :
    ∀ p ∈ mapUpd m k v, p ∈ m ∨ p = (k, v) := by
  induction m with
  | nil => intro p hp; simp [mapUpd] at hp
  | cons q rest ih =>
    intro p hp
    obtain ⟨a, e⟩ := q
    simp only [mapUpd] at hp
    by_cases hq : a = k
    · rw [if_pos hq] at hp
      rcases List.mem_cons.mp hp with rfl | hp2
      · right; rfl
      · rcases ih p hp2 with h2 | h2
        · exact Or.inl (List.mem_cons_of_mem _ h2)
        · exact Or.inr h2
    · rw [if_neg hq] at hp
      rcases List.mem_cons.mp hp with rfl | hp2
      · exact Or.inl (List.mem_cons_self _ _)
      · rcases ih p hp2 with h2 | h2
        · exact Or.inl (List.mem_cons_of_mem _ h2)
        · exact Or.inr h2

theorem evict_inv (bm : Bitmap) (rowId : Int) (rest : List Int)
    (st : List (List Nat)) (hinv : BmInv bm) (hrows : bm.cacheRows = rowId :: rest)
    (hst : st.length = bm.store.length) :
    BmInv { bm with cacheRows := rest, cache := mapDel bm.cache rowId, store := st } := by
  obtain ⟨hkeys, hnodup, hstore, hnn, hlen, hcap⟩ := hinv
  rw [hrows] at hkeys hnodup hnn
  have hnot : rowId ∉ rest := (List.nodup_cons.mp hnodup).1
  refine ⟨?_, ?_, ?_, ?_, ?_, ?_⟩
  · exact mapDel_keys_of_head bm.cache rowId rest hkeys hnot
  · exact (List.nodup_cons.mp hnodup).2
  · rw [hst]
    exact hstore
  · intro k hk
    exact hnn k (List.mem_cons_of_mem _ hk)
  · intro p hp
    exact hlen p (mapDel_subset bm.cache rowId p hp)
  · rcases hcap with h | h
    · exact Or.inl h
    · rw [hrows] at h
      cases h

theorem fcsGo_width (nitems : Nat) : ∀ (fuel : Nat) (bm : Bitmap),
    (freeCacheSpaceGo nitems fuel bm).2.width = bm.width := by
  intro fuel
  induction fuel with
  | zero => intro bm; rfl
  | succ fuel ih =>
    intro bm
    rw [freeCacheSpaceGo]
    split
    · split
      · rfl
      · split
        · rfl
        · dsimp only
          split
          · exact ih _
          · exact ih _
    · rfl

theorem fcsGo_height (nitems : Nat) : ∀ (fuel : Nat) (bm : Bitmap),
    (freeCacheSpaceGo nitems fuel bm).2.height = bm.height := by
  intro fuel
  induction fuel with
  | zero => intro bm; rfl
  | succ fuel ih =>
    intro bm
    rw [freeCacheSpaceGo]
    split
    · split
      · rfl
      · split
        · rfl
        · dsimp only
          split
          · exact ih _
          · exact ih _
    · rfl

theorem fcsGo_cap (nitems : Nat) : ∀ (fuel : Nat) (bm : Bitmap),
    (freeCacheSpaceGo nitems fuel bm).2.cacheMaxItems = bm.cacheMaxItems := by
  intro fuel
  induction fuel with
  | zero => intro bm; rfl
  | succ fuel ih =>
    intro bm
    rw [freeCacheSpaceGo]
    split
    · split
      · rfl
      · split
        · rfl
        · dsimp only
          split
          · exact ih _
          · exact ih _
    · rfl

theorem fcsGo_storeLen (nitems : Nat) : ∀ (fuel : Nat) (bm : Bitmap),
    (freeCacheSpaceGo nitems fuel bm).2.store.length = bm.store.length := by
  intro fuel
  induction fuel with
  | zero => intro bm; rfl
  | succ fuel ih =>
    intro bm
    rw [freeCacheSpaceGo]
    split
    · split
      · rfl
      · split
        · rfl
        · dsimp only
          split
          · exact (ih _).trans (List.length_set _ _ _)
          · exact ih _
    · rfl

theorem fcsGo_cache_sub (nitems : Nat) : ∀ (fuel : Nat) (bm : Bitmap),
    ∀ p ∈ (freeCacheSpaceGo nitems fuel bm).2.cache, p ∈ bm.cache := by
  intro fuel
  induction fuel with
  | zero => intro bm p hp; exact hp
  | succ fuel ih =>
    intro bm
    rw [freeCacheSpaceGo]
    split
    · split
      · intro p hp; exact hp
      · split
        · intro p hp
          exact mapDel_subset _ _ p hp
        · dsimp only
          split
          · intro p hp
            exact mapDel_subset _ _ p (ih _ p hp)
          · intro p hp
            exact mapDel_subset _ _ p (ih _ p hp)
    · intro p hp; exact hp

theorem fcsGo_rows_sub (nitems : Nat) : ∀ (fuel : Nat) (bm : Bitmap),
    ∀ k ∈ (freeCacheSpaceGo nitems fuel bm).2.cacheRows, k ∈ bm.cacheRows := by
  intro fuel
  induction fuel with
  | zero => intro bm k hk; exact hk
  | succ fuel ih =>
    intro bm
    rw [freeCacheSpaceGo]
    split
    · split
      · intro k hk; exact hk
      · rename_i rowId rest hrows
        split
        · intro k hk
          rw [hrows]
          exact List.mem_cons_of_mem _ hk
        · dsimp only
          split
          · intro k hk
            rw [hrows]
            exact List.mem_cons_of_mem _ (ih _ k hk)
          · intro k hk
            rw [hrows]
            exact List.mem_cons_of_mem _ (ih _ k hk)
    · intro k hk; exact hk

theorem fcsGo_rows_len (nitems : Nat) : ∀ (fuel : Nat) (bm : Bitmap),
    (freeCacheSpaceGo nitems fuel bm).2.cacheRows.length ≤ bm.cacheRows.length := by
  intro fuel
  induction fuel with
  | zero => intro bm; exact le_rfl
  | succ fuel ih =>
    intro bm
    rw [freeCacheSpaceGo]
    split
    · split
      · exact le_rfl
      · rename_i rowId rest hrows
        split
        · rw [hrows]
          simp
        · dsimp only
          split
          · refine le_trans (ih _) ?_
            rw [hrows]
            simp
          · refine le_trans (ih _) ?_
            rw [hrows]
            simp
    · exact le_rfl

theorem fcsGo_not_ioor (nitems : Nat) : ∀ (fuel : Nat) (bm : Bitmap),
    (freeCacheSpaceGo nitems fuel bm).1 ≠ .error .indexOutOfRange := by
  intro fuel
  induction fuel with
  | zero => intro bm h; cases h
  | succ fuel ih =>
    intro bm
    rw [freeCacheSpaceGo]
    split
    · split
      · intro h; cases h
      · split
        · intro h
          simp at h
        · dsimp only
          split
          · exact ih _
          · exact ih _
    · intro h; cases h

theorem get?_set_of_ne {α : Type} (l : List α) (i j : Nat) (a : α) (h : i ≠ j) :
    (l.set i a).get? j = l.get? j := by
  rw [List.get?_eq_getElem?, List.get?_eq_getElem?, List.getElem?_set_ne h]

theorem get?_set_self_of_lt {α : Type} (l : List α) (i : Nat) (a : α) (h : i < l.length) :
    (l.set i a).get? i = some a := by
  rw [List.get?_eq_getElem?, List.getElem?_set_self h]

theorem fcsGo_inv (nitems : Nat) : ∀ (fuel : Nat) (bm : Bitmap), BmInv bm →
    BmInv (freeCacheSpaceGo nitems fuel bm).2 := by
  intro fuel
  induction fuel with
  | zero => intro bm h; exact h
  | succ fuel ih =>
    intro bm hinv
    rw [freeCacheSpaceGo]
    split
    · split
      · exact hinv
      · rename_i rowId rest hrows
        split
        · exact evict_inv bm rowId rest bm.store hinv hrows rfl
        · rename_i row hget
          dsimp only
          split
          · exact ih _ (evict_inv bm rowId rest _ hinv hrows (List.length_set _ _ _))
          · exact ih _ (evict_inv bm rowId rest bm.store hinv hrows rfl)
    · exact hinv

theorem fcsGo_ok_le (nitems : Nat) : ∀ (fuel : Nat) (bm : Bitmap),
    bm.cacheRows.length < fuel →
    (freeCacheSpaceGo nitems fuel bm).1 = .ok () →
    (((freeCacheSpaceGo nitems fuel bm).2.cacheRows.length + nitems : Nat) : ℚ) ≤
      bm.cacheMaxItems := by
  intro fuel
  induction fuel with
  | zero => intro bm h; omega
  | succ fuel ih =>
    intro bm hfuel hok
    rw [freeCacheSpaceGo] at hok ⊢
    by_cases hcond : ((bm.cacheRows.length + nitems : Nat) : ℚ) > bm.cacheMaxItems
    · rw [if_pos hcond] at hok ⊢
      rcases hrows : bm.cacheRows with _ | ⟨rowId, rest⟩
      · rw [hrows] at hok
        simp at hok
      · simp only [hrows] at hok ⊢
        rcases hget : mapGet bm.cache rowId with _ | row
        · rw [hget] at hok
          simp at hok
        · rw [hget] at hok
          dsimp only at hok ⊢
          by_cases hmod : row.modified
          · rw [if_pos hmod] at hok ⊢
            refine ih _ ?_ hok
            show rest.length < fuel
            rw [hrows] at hfuel
            simp only [List.length_cons] at hfuel
            omega
          · rw [if_neg hmod] at hok ⊢
            refine ih _ ?_ hok
            show rest.length < fuel
            rw [hrows] at hfuel
            simp only [List.length_cons] at hfuel
            omega
    · rw [if_neg hcond] at hok ⊢
      exact not_lt.mp hcond

theorem fcsGo_ok (nitems : Nat) : ∀ (fuel : Nat) (bm : Bitmap), BmInv bm →
    ((nitems : Nat) : ℚ) ≤ bm.cacheMaxItems →
    bm.cacheRows.length < fuel →
    (freeCacheSpaceGo nitems fuel bm).1 = .ok () := by
  intro fuel
  induction fuel with
  | zero => intro bm _ _ h; omega
  | succ fuel ih =>
    intro bm hinv hcap hfuel
    rw [freeCacheSpaceGo]
    by_cases hcond : ((bm.cacheRows.length + nitems : Nat) : ℚ) > bm.cacheMaxItems
    · rw [if_pos hcond]
      rcases hrows : bm.cacheRows with _ | ⟨rowId, rest⟩
      · exfalso
        rw [hrows] at hcond
        simp only [List.length_nil, Nat.zero_add] at hcond
        exact absurd hcap (not_le.mpr hcond)
      · simp only [hrows]
        have hmem : rowId ∈ bm.cache.map Prod.fst := by
          rw [hinv.1, hrows]
          exact List.mem_cons_self _ _
        rcases hget : mapGet bm.cache rowId with _ | row
        · exfalso
          rw [mapGet_eq_none_iff] at hget
          exact hget hmem
        · dsimp only
          have hfuel2 : rest.length < fuel := by
            rw [hrows] at hfuel
            simp only [List.length_cons] at hfuel
            omega
          by_cases hmod : row.modified
          · rw [if_pos hmod]
            exact ih _ (evict_inv bm rowId rest _ hinv hrows (List.length_set _ _ _))
              hcap hfuel2
          · rw [if_neg hmod]
            exact ih _ (evict_inv bm rowId rest bm.store hinv hrows rfl) hcap hfuel2
    · rw [if_neg hcond]

theorem fcsGo_uncached (nitems : Nat) (y : Int) (hy : 0 ≤ y) :
    ∀ (fuel : Nat) (bm : Bitmap), BmInv bm → mapGet bm.cache y = none →
    mapGet (freeCacheSpaceGo nitems fuel bm).2.cache y = none ∧
    (freeCacheSpaceGo nitems fuel bm).2.store.get? y.toNat = bm.store.get? y.toNat := by
  intro fuel
  induction fuel with
  | zero => intro bm _ hnone; exact ⟨hnone, rfl⟩
  | succ fuel ih =>
    intro bm hinv hnone
    rw [freeCacheSpaceGo]
    split
    · split
      · exact ⟨hnone, rfl⟩
      · rename_i rowId rest hrows
        have hne : y ≠ rowId := by
          intro hx
          rw [mapGet_eq_none_iff, hinv.1, hrows, hx] at hnone
          exact hnone (List.mem_cons_self _ _)
        split
        · exact ⟨by rw [mapGet_mapDel_ne _ _ _ hne]; exact hnone, rfl⟩
        · rename_i row hget
          have hrow0 : (0 : Int) ≤ rowId :=
            hinv.2.2.2.1 rowId (by rw [hrows]; exact List.mem_cons_self _ _)
          have hnat : rowId.toNat ≠ y.toNat := by omega
          dsimp only
          have hnone2 : mapGet (mapDel bm.cache rowId) y = none := by
            rw [mapGet_mapDel_ne _ _ _ hne]
            exact hnone
          split
          · rename_i hmod
            have h2 := ih { bm with cacheRows := rest, cache := mapDel bm.cache rowId, store := bm.store.set rowId.toNat (rlcEncode row.data) }
              (evict_inv bm rowId rest _ hinv hrows (List.length_set _ _ _)) hnone2
            refine ⟨h2.1, h2.2.trans ?_⟩
            exact get?_set_of_ne _ _ _ _ hnat
          · have h2 := ih { bm with cacheRows := rest, cache := mapDel bm.cache rowId }
              (evict_inv bm rowId rest bm.store hinv hrows rfl) hnone2
            exact ⟨h2.1, h2.2⟩
    · exact ⟨hnone, rfl⟩

theorem fcsGo_cacheBits (nitems fuel : Nat) (bm : Bitmap) (hcb : CacheBits bm) :
    CacheBits (freeCacheSpaceGo nitems fuel bm).2 :=
  fun p hp => hcb p (fcsGo_cache_sub nitems fuel bm p hp)

theorem fcsGo_track (nitems : Nat) (x y : Int) (v : Nat) (hy : 0 ≤ y) :
    ∀ (fuel : Nat) (bm : Bitmap), BmInv bm → CacheBits bm →
    y.toNat < bm.store.length → Tracked bm x y v →
    Tracked (freeCacheSpaceGo nitems fuel bm).2 x y v := by
  intro fuel
  induction fuel with
  | zero => intro bm _ _ _ ht; exact ht
  | succ fuel ih =>
    intro bm hinv hcb hylt ht
    rw [freeCacheSpaceGo]
    split
    · split
      · exact ht
      · rename_i rowId rest hrows
        have hrow0 : (0 : Int) ≤ rowId :=
          hinv.2.2.2.1 rowId (by rw [hrows]; exact List.mem_cons_self _ _)
        split
        · rename_i hget
          exfalso
          rw [mapGet_eq_none_iff, hinv.1, hrows] at hget
          exact hget (List.mem_cons_self _ _)
        · rename_i row hget
          dsimp only
          by_cases hyeq : rowId = y
          · subst hyeq
            unfold Tracked at ht
            rw [hget] at ht
            obtain ⟨hmod, hval⟩ := ht
            rw [if_pos hmod]
            apply ih
            · exact evict_inv bm rowId rest _ hinv hrows (List.length_set _ _ _)
            · intro p hp
              exact hcb p (mapDel_subset _ _ p hp)
            · show rowId.toNat < (bm.store.set rowId.toNat (rlcEncode row.data)).length
              rw [List.length_set]
              exact hylt
            · unfold Tracked
              rw [mapGet_mapDel_self]
              refine ⟨rlcEncode row.data, ?_, ?_⟩
              · exact get?_set_self_of_lt _ _ _ hylt
              · have hlen : row.data.length = bm.width :=
                  hinv.2.2.2.2.1 (rowId, row) (mapGet_mem _ _ _ hget)
                have hbits : BitList row.data := hcb (rowId, row) (mapGet_mem _ _ _ hget)
                show tyGet (rlcDecode bm.width (rlcEncode row.data)) x = some v
                rw [← hlen, rlc_roundtrip row.data hbits]
                exact hval
          · have hyne : y ≠ rowId := fun hx => hyeq hx.symm
            have hnat : rowId.toNat ≠ y.toNat := by omega
            have htup : ∀ st : List (List Nat),
                st.get? y.toNat = bm.store.get? y.toNat →
                Tracked { bm with cacheRows := rest, cache := mapDel bm.cache rowId, store := st } x y v := by
              intro st hst
              unfold Tracked at ht ⊢
              show (match mapGet (mapDel bm.cache rowId) y with
                | some e => e.modified = true ∧ tyGet e.data x = some v
                | none => ∃ rlc, st.get? y.toNat = some rlc ∧
                    tyGet (rlcDecode bm.width rlc) x = some v)
              rw [mapGet_mapDel_ne _ _ _ hyne]
              rcases hc : mapGet bm.cache y with _ | e
              · rw [hc] at ht
                obtain ⟨rlc, hsome, hdec⟩ := ht
                exact ⟨rlc, by rw [hst]; exact hsome, hdec⟩
              · rw [hc] at ht
                exact ht
            split
            · rename_i hmod
              apply ih
              · exact evict_inv bm rowId rest _ hinv hrows (List.length_set _ _ _)
              · intro p hp
                exact hcb p (mapDel_subset _ _ p hp)
              · show y.toNat < (bm.store.set rowId.toNat (rlcEncode row.data)).length
                rw [List.length_set]
                exact hylt
              · exact htup _ (get?_set_of_ne _ _ _ _ hnat)
            · apply ih
              · exact evict_inv bm rowId rest bm.store hinv hrows rfl
              · intro p hp
                exact hcb p (mapDel_subset _ _ p hp)
              · exact hylt
              · exact htup bm.store rfl
    · exact ht

theorem freeCacheSpace_inv (bm : Bitmap) (n : Nat) (h : BmInv bm) :
    BmInv (freeCacheSpace bm n).2 :=
  fcsGo_inv n _ bm h

theorem freeCacheSpace_ok_le (bm : Bitmap) (n : Nat)
    (hok : (freeCacheSpace bm n).1 = .ok ()) :
    (((freeCacheSpace bm n).2.cacheRows.length + n : Nat) : ℚ) ≤ bm.cacheMaxItems :=
  fcsGo_ok_le n _ bm (by omega) hok

theorem freeCacheSpace_ok (bm : Bitmap) (n : Nat) (hinv : BmInv bm)
    (hcap : ((n : Nat) : ℚ) ≤ bm.cacheMaxItems) :
    (freeCacheSpace bm n).1 = .ok () :=
  fcsGo_ok n _ bm hinv hcap (by omega)

theorem freeCacheSpace_cap_of_ok (bm : Bitmap) (hok : (freeCacheSpace bm 1).1 = .ok ()) :
    1 ≤ bm.cacheMaxItems := by
  have h := freeCacheSpace_ok_le bm 1 hok
  refine le_trans ?_ h
  have : (1 : Nat) ≤ (freeCacheSpace bm 1).2.cacheRows.length + 1 := by omega
  calc (1 : ℚ) = ((1 : Nat) : ℚ) := by norm_num
    _ ≤ (((freeCacheSpace bm 1).2.cacheRows.length + 1 : Nat) : ℚ) := by
        exact_mod_cast this

theorem bmGetRow_ioor_iff (bm : Bitmap) (y : Int) :
    (bmGetRow bm y).1 = .error .indexOutOfRange ↔ (y < 0 ∨ (bm.height : Int) < y) := by
  constructor
  · intro h
    by_contra hb
    unfold bmGetRow at h
    rw [if_neg hb] at h
    rcases hc : mapGet bm.cache y with _ | e
    · rw [hc] at h
      dsimp only at h
      rcases hfc : freeCacheSpace bm 1 with ⟨res, bm1⟩
      rw [hfc] at h
      cases res with
      | error err =>
        dsimp only at h
        have hni := fcsGo_not_ioor 1 (bm.cacheRows.length + 1) bm
        unfold freeCacheSpace at hfc
        rw [hfc] at hni
        dsimp only at hni
        injection h with herr
        rw [herr] at hni
        exact hni rfl
      | ok u =>
        dsimp only at h
        rcases hst : bm1.store.get? y.toNat with _ | rlc
        · rw [hst] at h
          simp at h
        · rw [hst] at h
          simp at h
    · rw [hc] at h
      simp at h
  · intro h
    unfold bmGetRow
    rw [if_pos h]

theorem bmGetRow_hit (bm : Bitmap) (y : Int) (e : CacheEntry)
    (hb : ¬ (y < 0 ∨ (bm.height : Int) < y)) (hc : mapGet bm.cache y = some e) :
    bmGetRow bm y = (.ok e.data, bm) := by
  unfold bmGetRow
  rw [if_neg hb, hc]

theorem freeCacheSpace_width (bm : Bitmap) (n : Nat) :
    (freeCacheSpace bm n).2.width = bm.width := fcsGo_width n _ bm

theorem freeCacheSpace_height (bm : Bitmap) (n : Nat) :
    (freeCacheSpace bm n).2.height = bm.height := fcsGo_height n _ bm

theorem freeCacheSpace_cap (bm : Bitmap) (n : Nat) :
    (freeCacheSpace bm n).2.cacheMaxItems = bm.cacheMaxItems := fcsGo_cap n _ bm

theorem freeCacheSpace_storeLen (bm : Bitmap) (n : Nat) :
    (freeCacheSpace bm n).2.store.length = bm.store.length := fcsGo_storeLen n _ bm

theorem bmGetRow_miss_err (bm : Bitmap) (y : Int) (err : Err)
    (hb : ¬ (y < 0 ∨ (bm.height : Int) < y)) (hc : mapGet bm.cache y = none)
    (herr : (freeCacheSpace bm 1).1 = .error err) :
    bmGetRow bm y = (.error err, (freeCacheSpace bm 1).2) := by
  unfold bmGetRow
  rw [if_neg hb, hc]
  dsimp only
  rcases hfc : freeCacheSpace bm 1 with ⟨res, bm1⟩
  rw [hfc] at herr
  dsimp only at herr
  rw [herr]

theorem bmGetRow_miss_stnone (bm : Bitmap) (y : Int)
    (hb : ¬ (y < 0 ∨ (bm.height : Int) < y)) (hc : mapGet bm.cache y = none)
    (hok : (freeCacheSpace bm 1).1 = .ok ())
    (hstn : (freeCacheSpace bm 1).2.store.get? y.toNat = none) :
    bmGetRow bm y = (.error .typeError, (freeCacheSpace bm 1).2) := by
  unfold bmGetRow
  rw [if_neg hb, hc]
  dsimp only
  rcases hfc : freeCacheSpace bm 1 with ⟨res, bm1⟩
  rw [hfc] at hok hstn
  dsimp only at hok hstn
  rw [hok]
  dsimp only
  rw [hstn]

theorem bmGetRow_miss (bm : Bitmap) (y : Int) (rlc : List Nat)
    (hb : ¬ (y < 0 ∨ (bm.height : Int) < y)) (hc : mapGet bm.cache y = none)
    (hok : (freeCacheSpace bm 1).1 = .ok ())
    (hst : (freeCacheSpace bm 1).2.store.get? y.toNat = some rlc) :
    bmGetRow bm y =
      (.ok (rlcDecode (freeCacheSpace bm 1).2.width rlc),
        { (freeCacheSpace bm 1).2 with
            cache := (freeCacheSpace bm 1).2.cache ++
              [(y, ⟨y, false, rlcDecode (freeCacheSpace bm 1).2.width rlc⟩)],
            cacheRows := (freeCacheSpace bm 1).2.cacheRows ++ [y] }) := by
  unfold bmGetRow
  rw [if_neg hb, hc]
  dsimp only
  rcases hfc : freeCacheSpace bm 1 with ⟨res, bm1⟩
  rw [hfc] at hok hst
  dsimp only at hok hst
  rw [hok]
  dsimp only
  rw [hst]

theorem mapGet_append_single_ne (m : List (Int × CacheEntry)) (k y : Int) (e : CacheEntry)
    (h : k ≠ y) : mapGet (m ++ [(k, e)]) y = mapGet m y := by
  rcases hm : mapGet m y with _ | e2
  · rw [mapGet_append_of_none m _ y hm]
    simp only [mapGet]
    rw [if_neg h]
  · exact mapGet_append_of_some m _ y e2 hm

theorem tySet_length (row : List Nat) (x : Int) (v : Nat) :
    (tySet row x v).length = row.length := by
  unfold tySet
  split
  · exact List.length_set _ _ _
  · rfl

theorem tySet_bits (row : List Nat) (x : Int) (v : Nat) (hrow : BitList row)
    (hv : v = 0 ∨ v = 1) : BitList (tySet row x v) := by
  unfold tySet
  split
  · refine BitList_set _ _ _ hrow ?_
    rcases hv with rfl | rfl
    · left; rfl
    · right; rfl
  · exact hrow

theorem tyGet_tySet_self (row : List Nat) (x : Int) (v : Nat)
    (hx0 : 0 ≤ x) (hxl : x.toNat < row.length) :
    tyGet (tySet row x v) x = some (v % 256) := by
  unfold tyGet tySet
  rw [if_pos hx0, if_pos hx0]
  exact get?_set_self_of_lt _ _ _ hxl

theorem bmGetRow_inv (bm : Bitmap) (y : Int) (hinv : BmInv bm) :
    BmInv (bmGetRow bm y).2 := by
  by_cases hb : y < 0 ∨ (bm.height : Int) < y
  · unfold bmGetRow
    rw [if_pos hb]
    exact hinv
  · have hb2 : 0 ≤ y ∧ y ≤ (bm.height : Int) := by push_neg at hb; exact hb
    rcases hc : mapGet bm.cache y with _ | e
    · rcases hres : (freeCacheSpace bm 1).1 with err | u
      · rw [bmGetRow_miss_err bm y err hb hc hres]
        exact freeCacheSpace_inv bm 1 hinv
      · cases u
        rcases hst : (freeCacheSpace bm 1).2.store.get? y.toNat with _ | rlc
        · rw [bmGetRow_miss_stnone bm y hb hc hres hst]
          exact freeCacheSpace_inv bm 1 hinv
        · rw [bmGetRow_miss bm y rlc hb hc hres hst]
          have hinv1 : BmInv (freeCacheSpace bm 1).2 := freeCacheSpace_inv bm 1 hinv
          have hun := fcsGo_uncached 1 y hb2.1 (bm.cacheRows.length + 1) bm hinv hc
          obtain ⟨hk1, hnd1, hsl1, hnn1, hdl1, hcap1⟩ := hinv1
          have hynk : y ∉ (freeCacheSpace bm 1).2.cacheRows := by
            rw [← hk1]
            exact (mapGet_eq_none_iff _ _).mp hun.1
          refine ⟨?_, ?_, ?_, ?_, ?_, ?_⟩
          · dsimp only
            rw [List.map_append, hk1]
            rfl
          · dsimp only
            rw [List.nodup_append]
            refine ⟨hnd1, by simp, ?_⟩
            intro a ha hamem
            simp only [List.mem_singleton] at hamem
            subst hamem
            exact hynk ha
          · dsimp only
            rw [freeCacheSpace_storeLen, freeCacheSpace_height, hinv.2.2.1]
          · intro k hk
            dsimp only at hk
            rcases List.mem_append.mp hk with hk2 | hk2
            · exact hnn1 k hk2
            · simp only [List.mem_singleton] at hk2
              subst hk2
              exact hb2.1
          · intro p hp
            dsimp only at hp ⊢
            rcases List.mem_append.mp hp with hp2 | hp2
            · exact hdl1 p hp2
            · simp only [List.mem_singleton] at hp2
              subst hp2
              exact rlcDecode_length _ _
          · left
            dsimp only
            rw [freeCacheSpace_cap]
            exact freeCacheSpace_cap_of_ok bm hres
    · rw [bmGetRow_hit bm y e hb hc]
      exact hinv

theorem bmGetRow_fields (bm : Bitmap) (y : Int) :
    (bmGetRow bm y).2.width = bm.width ∧ (bmGetRow bm y).2.height = bm.height ∧
    (bmGetRow bm y).2.cacheMaxItems = bm.cacheMaxItems ∧
    (bmGetRow bm y).2.store.length = bm.store.length := by
  by_cases hb : y < 0 ∨ (bm.height : Int) < y
  · unfold bmGetRow
    rw [if_pos hb]
    exact ⟨rfl, rfl, rfl, rfl⟩
  · rcases hc : mapGet bm.cache y with _ | e
    · rcases hres : (freeCacheSpace bm 1).1 with err | u
      · rw [bmGetRow_miss_err bm y err hb hc hres]
        exact ⟨freeCacheSpace_width bm 1, freeCacheSpace_height bm 1,
          freeCacheSpace_cap bm 1, freeCacheSpace_storeLen bm 1⟩
      · cases u
        rcases hst : (freeCacheSpace bm 1).2.store.get? y.toNat with _ | rlc
        · rw [bmGetRow_miss_stnone bm y hb hc hres hst]
          exact ⟨freeCacheSpace_width bm 1, freeCacheSpace_height bm 1,
            freeCacheSpace_cap bm 1, freeCacheSpace_storeLen bm 1⟩
        · rw [bmGetRow_miss bm y rlc hb hc hres hst]
          exact ⟨freeCacheSpace_width bm 1, freeCacheSpace_height bm 1,
            freeCacheSpace_cap bm 1, freeCacheSpace_storeLen bm 1⟩
    · rw [bmGetRow_hit bm y e hb hc]
      exact ⟨rfl, rfl, rfl, rfl⟩

theorem bmGetRow_cacheBits (bm : Bitmap) (y : Int)
    (hcb : CacheBits bm) : CacheBits (bmGetRow bm y).2 := by
  by_cases hb : y < 0 ∨ (bm.height : Int) < y
  · unfold bmGetRow
    rw [if_pos hb]
    exact hcb
  · rcases hc : mapGet bm.cache y with _ | e
    · rcases hres : (freeCacheSpace bm 1).1 with err | u
      · rw [bmGetRow_miss_err bm y err hb hc hres]
        exact fcsGo_cacheBits 1 _ bm hcb
      · cases u
        rcases hst : (freeCacheSpace bm 1).2.store.get? y.toNat with _ | rlc
        · rw [bmGetRow_miss_stnone bm y hb hc hres hst]
          exact fcsGo_cacheBits 1 _ bm hcb
        · rw [bmGetRow_miss bm y rlc hb hc hres hst]
          intro p hp
          dsimp only at hp
          rcases List.mem_append.mp hp with hp2 | hp2
          · exact fcsGo_cacheBits 1 _ bm hcb p hp2
          · simp only [List.mem_singleton] at hp2
            subst hp2
            exact rlcDecode_bits _ _
    · rw [bmGetRow_hit bm y e hb hc]
      exact hcb

theorem bmGetRow_ok_cached (bm : Bitmap) (y : Int) (data : List Nat) (hinv : BmInv bm)
    (hok : (bmGetRow bm y).1 = .ok data) :
    ∃ e, mapGet (bmGetRow bm y).2.cache y = some e ∧ e.data = data := by
  by_cases hb : y < 0 ∨ (bm.height : Int) < y
  · unfold bmGetRow at hok
    rw [if_pos hb] at hok
    cases hok
  · have hb2 : 0 ≤ y ∧ y ≤ (bm.height : Int) := by push_neg at hb; exact hb
    rcases hc : mapGet bm.cache y with _ | e
    · rcases hres : (freeCacheSpace bm 1).1 with err | u
      · rw [bmGetRow_miss_err bm y err hb hc hres] at hok
        cases hok
      · cases u
        rcases hst : (freeCacheSpace bm 1).2.store.get? y.toNat with _ | rlc
        · rw [bmGetRow_miss_stnone bm y hb hc hres hst] at hok
          cases hok
        · rw [bmGetRow_miss bm y rlc hb hc hres hst] at hok ⊢
          dsimp only at hok ⊢
          have hun := fcsGo_uncached 1 y hb2.1 (bm.cacheRows.length + 1) bm hinv hc
          refine ⟨⟨y, false, rlcDecode (freeCacheSpace bm 1).2.width rlc⟩, ?_, ?_⟩
          · have hun2 : mapGet (freeCacheSpace bm 1).2.cache y = none := hun.1
            rw [mapGet_append_of_none _ _ _ hun2]
            simp [mapGet]
          · exact Except.ok.inj hok
    · rw [bmGetRow_hit bm y e hb hc] at hok ⊢
      dsimp only at hok ⊢
      refine ⟨e, hc, ?_⟩
      exact Except.ok.inj hok

theorem bmGetRow_track (bm : Bitmap) (y2 x y : Int) (v : Nat) (hinv : BmInv bm)
    (hcb : CacheBits bm) (hy : 0 ≤ y) (hyl : y.toNat < bm.store.length)
    (hne : y2 ≠ y) (ht : Tracked bm x y v) :
    Tracked (bmGetRow bm y2).2 x y v := by
  by_cases hb : y2 < 0 ∨ (bm.height : Int) < y2
  · unfold bmGetRow
    rw [if_pos hb]
    exact ht
  · rcases hc : mapGet bm.cache y2 with _ | e
    · have htr1 : Tracked (freeCacheSpace bm 1).2 x y v :=
        fcsGo_track 1 x y v hy _ bm hinv hcb hyl ht
      rcases hres : (freeCacheSpace bm 1).1 with err | u
      · rw [bmGetRow_miss_err bm y2 err hb hc hres]
        exact htr1
      · cases u
        rcases hst : (freeCacheSpace bm 1).2.store.get? y2.toNat with _ | rlc
        · rw [bmGetRow_miss_stnone bm y2 hb hc hres hst]
          exact htr1
        · rw [bmGetRow_miss bm y2 rlc hb hc hres hst]
          unfold Tracked at htr1 ⊢
          dsimp only
          rw [mapGet_append_single_ne _ _ _ _ hne]
          exact htr1
    · rw [bmGetRow_hit bm y2 e hb hc]
      exact ht

theorem bmGet_state (bm : Bitmap) (x y : Int) : (bmGet bm x y).2 = (bmGetRow bm y).2 := by
  unfold bmGet
  rcases h : bmGetRow bm y with ⟨res, bm1⟩
  cases res <;> rfl

theorem bmSet_err (bm : Bitmap) (x y : Int) (onOff : Nat) (err : Err)
    (h : (bmGetRow bm y).1 = .error err) :
    bmSet bm x y onOff = (.error err, (bmGetRow bm y).2) := by
  unfold bmSet
  rcases hgr : bmGetRow bm y with ⟨res, bm1⟩
  rw [hgr] at h
  dsimp only at h
  rw [h]

theorem bmSet_ok (bm : Bitmap) (x y : Int) (onOff : Nat) (data : List Nat) (e : CacheEntry)
    (hok : (bmGetRow bm y).1 = .ok data)
    (hc : mapGet (bmGetRow bm y).2.cache y = some e) :
    bmSet bm x y onOff =
      (.ok (), { (bmGetRow bm y).2 with
        cache := mapUpd (bmGetRow bm y).2.cache y
          { e with data := tySet data x onOff, modified := true } }) := by
  unfold bmSet
  rcases hgr : bmGetRow bm y with ⟨res, bm1⟩
  rw [hgr] at hok hc
  dsimp only at hok hc
  rw [hok]
  dsimp only
  rw [hc]

theorem bmSet_inv (bm : Bitmap) (x y : Int) (onOff : Nat) (hinv : BmInv bm) :
    BmInv (bmSet bm x y onOff).2 := by
  rcases hres : (bmGetRow bm y).1 with err | data
  · rw [bmSet_err bm x y onOff err hres]
    exact bmGetRow_inv bm y hinv
  · obtain ⟨e, hc, hdata⟩ := bmGetRow_ok_cached bm y data hinv hres
    rw [bmSet_ok bm x y onOff data e hres hc]
    have hinv1 := bmGetRow_inv bm y hinv
    obtain ⟨hk1, hnd1, hsl1, hnn1, hdl1, hcap1⟩ := hinv1
    refine ⟨?_, hnd1, hsl1, hnn1, ?_, hcap1⟩
    · dsimp only
      rw [mapUpd_keys]
      exact hk1
    · intro p hp
      dsimp only at hp
      rcases mapUpd_mem _ _ _ p hp with h2 | h2
      · exact hdl1 p h2
      · subst h2
        show (tySet data x onOff).length = _
        rw [tySet_length]
        have h3 := hdl1 (y, e) (mapGet_mem _ _ _ hc)
        dsimp only at h3
        rw [hdata] at h3
        exact h3

theorem bmSet_fields (bm : Bitmap) (x y : Int) (onOff : Nat) :
    (bmSet bm x y onOff).2.width = bm.width ∧
    (bmSet bm x y onOff).2.height = bm.height ∧
    (bmSet bm x y onOff).2.cacheMaxItems = bm.cacheMaxItems ∧
    (bmSet bm x y onOff).2.store.length = bm.store.length ∧
    (bmSet bm x y onOff).2.cacheRows = (bmGetRow bm y).2.cacheRows := by
  obtain ⟨hw, hh, hcap, hsl⟩ := bmGetRow_fields bm y
  rcases hres : (bmGetRow bm y).1 with err | data
  · rw [bmSet_err bm x y onOff err hres]
    exact ⟨hw, hh, hcap, hsl, rfl⟩
  · unfold bmSet
    rcases hgr : bmGetRow bm y with ⟨res, bm1⟩
    rw [hgr] at hres
    dsimp only at hres
    rw [hres]
    dsimp only
    rw [hgr] at hw hh hcap hsl
    dsimp only at hw hh hcap hsl
    rcases hc : mapGet bm1.cache y with _ | e
    · exact ⟨hw, hh, hcap, hsl, rfl⟩
    · exact ⟨hw, hh, hcap, hsl, rfl⟩

theorem bmSet_cacheBits (bm : Bitmap) (x y : Int) (onOff : Nat) (hinv : BmInv bm)
    (hcb : CacheBits bm) (hv : onOff = 0 ∨ onOff = 1) :
    CacheBits (bmSet bm x y onOff).2 := by
  have hcb1 : CacheBits (bmGetRow bm y).2 := bmGetRow_cacheBits bm y hcb
  rcases hres : (bmGetRow bm y).1 with err | data
  · rw [bmSet_err bm x y onOff err hres]
    exact hcb1
  · obtain ⟨e, hc, hdata⟩ := bmGetRow_ok_cached bm y data hinv hres
    rw [bmSet_ok bm x y onOff data e hres hc]
    intro p hp
    dsimp only at hp
    rcases mapUpd_mem _ _ _ p hp with h2 | h2
    · exact hcb1 p h2
    · subst h2
      show BitList (tySet data x onOff)
      refine tySet_bits _ _ _ ?_ hv
      have h3 := hcb1 (y, e) (mapGet_mem _ _ _ hc)
      dsimp only at h3
      rw [hdata] at h3
      exact h3

theorem bmSet_track (bm : Bitmap) (y2 x2 x y : Int) (v onOff : Nat) (hinv : BmInv bm)
    (hcb : CacheBits bm) (hy : 0 ≤ y) (hyl : y.toNat < bm.store.length)
    (hne : y2 ≠ y) (ht : Tracked bm x y v) :
    Tracked (bmSet bm x2 y2 onOff).2 x y v := by
  have ht1 : Tracked (bmGetRow bm y2).2 x y v :=
    bmGetRow_track bm y2 x y v hinv hcb hy hyl hne ht
  rcases hres : (bmGetRow bm y2).1 with err | data
  · rw [bmSet_err bm x2 y2 onOff err hres]
    exact ht1
  · obtain ⟨e, hc, hdata⟩ := bmGetRow_ok_cached bm y2 data hinv hres
    rw [bmSet_ok bm x2 y2 onOff data e hres hc]
    unfold Tracked at ht1 ⊢
    dsimp only
    rw [mapGet_mapUpd_ne _ _ _ _ (Ne.symm hne)]
    exact ht1

theorem flushLoop_state : ∀ (r i : Nat) (bm : Bitmap),
    (flushLoop r i bm).2.cache = bm.cache ∧
    (flushLoop r i bm).2.cacheRows = bm.cacheRows ∧
    (flushLoop r i bm).2.width = bm.width ∧
    (flushLoop r i bm).2.height = bm.height ∧
    (flushLoop r i bm).2.cacheMaxItems = bm.cacheMaxItems ∧
    (flushLoop r i bm).2.store.length = bm.store.length := by
  intro r
  induction r with
  | zero => intro i bm; exact ⟨rfl, rfl, rfl, rfl, rfl, rfl⟩
  | succ r ih =>
    intro i bm
    rw [flushLoop]
    split
    · exact ⟨rfl, rfl, rfl, rfl, rfl, rfl⟩
    · rename_i row hget
      dsimp only
      split
      · obtain ⟨h1, h2, h3, h4, h5, h6⟩ := ih (i + 1)
          { bm with store := bm.store.set i (rlcEncode row.data) }
        exact ⟨h1, h2, h3, h4, h5, h6.trans (List.length_set _ _ _)⟩
      · exact ih (i + 1) bm

theorem flushLoop_inv (r i : Nat) (bm : Bitmap) (hinv : BmInv bm) :
    BmInv (flushLoop r i bm).2 := by
  obtain ⟨h1, h2, h3, h4, h5, h6⟩ := flushLoop_state r i bm
  obtain ⟨hk, hnd, hsl, hnn, hdl, hcap⟩ := hinv
  refine ⟨?_, ?_, ?_, ?_, ?_, ?_⟩
  · rw [h1, h2]
    exact hk
  · rw [h2]
    exact hnd
  · rw [h6, h4]
    exact hsl
  · rw [h2]
    exact hnn
  · rw [h1, h3]
    exact hdl
  · rw [h5, h2]
    exact hcap

theorem flushLoop_track (x y : Int) (v : Nat) (hy : 0 ≤ y) :
    ∀ (r i : Nat) (bm : Bitmap), Tracked bm x y v →
    Tracked (flushLoop r i bm).2 x y v := by
  intro r
  induction r with
  | zero => intro i bm ht; exact ht
  | succ r ih =>
    intro i bm ht
    rw [flushLoop]
    split
    · exact ht
    · rename_i row hget
      dsimp only
      split
      · apply ih
        unfold Tracked at ht ⊢
        show (match mapGet bm.cache y with
          | some e => e.modified = true ∧ tyGet e.data x = some v
          | none => ∃ rlc,
              (bm.store.set i (rlcEncode row.data)).get? y.toNat = some rlc ∧
              tyGet (rlcDecode bm.width rlc) x = some v)
        rcases hcy : mapGet bm.cache y with _ | e
        · rw [hcy] at ht
          obtain ⟨rlc, hsome, hdec⟩ := ht
          have hiy : ((i : Nat) : Int) ≠ y := by
            intro hx
            rw [hx] at hget
            rw [hcy] at hget
            cases hget
          have hnat : i ≠ y.toNat := by omega
          exact ⟨rlc, by rw [get?_set_of_ne _ _ _ _ hnat]; exact hsome, hdec⟩
        · rw [hcy] at ht
          exact ht
      · exact ih (i + 1) bm ht

theorem bmFlushChanges_state (bm : Bitmap) :
    (bmFlushChanges bm).2.cache = bm.cache ∧
    (bmFlushChanges bm).2.cacheRows = bm.cacheRows ∧
    (bmFlushChanges bm).2.width = bm.width ∧
    (bmFlushChanges bm).2.height = bm.height ∧
    (bmFlushChanges bm).2.cacheMaxItems = bm.cacheMaxItems ∧
    (bmFlushChanges bm).2.store.length = bm.store.length :=
  flushLoop_state bm.cacheRows.length 0 bm

theorem applyOp_inv (bm : Bitmap) (op : Op) (hinv : BmInv bm) : BmInv (applyOp bm op) := by
  cases op with
  | get x y =>
    simp only [applyOp]
    rw [bmGet_state]
    exact bmGetRow_inv bm y hinv
  | set x y v => exact bmSet_inv bm x y v hinv
  | flush => exact flushLoop_inv _ _ bm hinv

theorem applyOp_fields (bm : Bitmap) (op : Op) :
    (applyOp bm op).width = bm.width ∧ (applyOp bm op).height = bm.height ∧
    (applyOp bm op).cacheMaxItems = bm.cacheMaxItems ∧
    (applyOp bm op).store.length = bm.store.length := by
  cases op with
  | get x y =>
    simp only [applyOp]
    rw [bmGet_state]
    obtain ⟨a, b, c, d⟩ := bmGetRow_fields bm y
    exact ⟨a, b, c, d⟩
  | set x y v =>
    obtain ⟨a, b, c, d, _⟩ := bmSet_fields bm x y v
    exact ⟨a, b, c, d⟩
  | flush =>
    obtain ⟨_, _, c3, c4, c5, c6⟩ := bmFlushChanges_state bm
    exact ⟨c3, c4, c5, c6⟩

theorem applyOp_cacheBits (bm : Bitmap) (op : Op) (y : Int) (hinv : BmInv bm)
    (hcb : CacheBits bm) (hop : OpAvoids op y) : CacheBits (applyOp bm op) := by
  cases op with
  | get x2 y2 =>
    simp only [applyOp]
    rw [bmGet_state]
    exact bmGetRow_cacheBits bm y2 hcb
  | set x2 y2 v2 => exact bmSet_cacheBits bm x2 y2 v2 hinv hcb hop.2
  | flush =>
    show CacheBits (bmFlushChanges bm).2
    intro p hp
    rw [(bmFlushChanges_state bm).1] at hp
    exact hcb p hp

theorem applyOp_track (bm : Bitmap) (op : Op) (x y : Int) (v : Nat)
    (hinv : BmInv bm) (hcb : CacheBits bm) (hy : 0 ≤ y) (hyl : y.toNat < bm.store.length)
    (hop : OpAvoids op y) (ht : Tracked bm x y v) : Tracked (applyOp bm op) x y v := by
  cases op with
  | get x2 y2 =>
    simp only [applyOp]
    rw [bmGet_state]
    exact bmGetRow_track bm y2 x y v hinv hcb hy hyl hop ht
  | set x2 y2 v2 => exact bmSet_track bm y2 x2 x y v v2 hinv hcb hy hyl hop.1 ht
  | flush => exact flushLoop_track x y v hy _ _ bm ht

theorem runOps_inv_track (x y : Int) (v : Nat) (hy : 0 ≤ y) :
    ∀ (ops : List Op) (bm : Bitmap), BmInv bm → CacheBits bm →
    y.toNat < bm.height → (∀ op ∈ ops, OpAvoids op y) → Tracked bm x y v →
    BmInv (runOps bm ops) ∧ CacheBits (runOps bm ops) ∧ Tracked (runOps bm ops) x y v ∧
    (runOps bm ops).width = bm.width ∧ (runOps bm ops).height = bm.height ∧
    (runOps bm ops).cacheMaxItems = bm.cacheMaxItems := by
  intro ops
  induction ops with
  | nil => intro bm h1 h2 _ _ h5; exact ⟨h1, h2, h5, rfl, rfl, rfl⟩
  | cons op rest ih =>
    intro bm h1 h2 h3 hops h5
    have hstep : runOps bm (op :: rest) = runOps (applyOp bm op) rest := by
      unfold runOps
      rw [List.foldl_cons]
    rw [hstep]
    have hop : OpAvoids op y := hops op (List.mem_cons_self _ _)
    obtain ⟨hw, hh, hcap, hsl⟩ := applyOp_fields bm op
    have hyl : y.toNat < bm.store.length := by
      rw [h1.2.2.1]
      exact h3
    have ih2 := ih (applyOp bm op) (applyOp_inv bm op h1)
      (applyOp_cacheBits bm op y h1 h2 hop)
      (by rw [hh]; exact h3)
      (fun op2 hop2 => hops op2 (List.mem_cons_of_mem _ hop2))
      (applyOp_track bm op x y v h1 h2 hy hyl hop h5)
    refine ⟨ih2.1, ih2.2.1, ih2.2.2.1, ?_, ?_, ?_⟩
    · rw [ih2.2.2.2.1, hw]
    · rw [ih2.2.2.2.2.1, hh]
    · rw [ih2.2.2.2.2.2, hcap]

theorem bmGetRow_ok_cap (bm : Bitmap) (y : Int) (data : List Nat) (hinv : BmInv bm)
    (hok : (bmGetRow bm y).1 = .ok data) : 1 ≤ bm.cacheMaxItems := by
  by_cases hb : y < 0 ∨ (bm.height : Int) < y
  · unfold bmGetRow at hok
    rw [if_pos hb] at hok
    cases hok
  · rcases hc : mapGet bm.cache y with _ | e
    · rcases hres : (freeCacheSpace bm 1).1 with err | u
      · rw [bmGetRow_miss_err bm y err hb hc hres] at hok
        cases hok
      · exact freeCacheSpace_cap_of_ok bm (by rw [hres])
    · rcases hinv.2.2.2.2.2 with h | h
      · exact h
      · exfalso
        have hmem : y ∈ bm.cache.map Prod.fst := by
          by_contra hx
          rw [← mapGet_eq_none_iff] at hx
          rw [hx] at hc
          cases hc
        rw [hinv.1, h] at hmem
        cases hmem

theorem bmGet_tracked (bm : Bitmap) (x y : Int) (v : Nat) (hinv : BmInv bm)
    (hy0 : 0 ≤ y) (hyh : y < (bm.height : Int)) (hcap : 1 ≤ bm.cacheMaxItems)
    (hnone : mapGet bm.cache y = none) (ht : Tracked bm x y v) :
    (bmGet bm x y).1 = .ok (some v) := by
  have hb : ¬ (y < 0 ∨ (bm.height : Int) < y) := by
    push_neg
    omega
  have hok : (freeCacheSpace bm 1).1 = .ok () :=
    freeCacheSpace_ok bm 1 hinv (by rw [Nat.cast_one]; exact hcap)
  unfold Tracked at ht
  rw [hnone] at ht
  obtain ⟨rlc, hst, hdec⟩ := ht
  have hun := fcsGo_uncached 1 y hy0 (bm.cacheRows.length + 1) bm hinv hnone
  have hst1 : (freeCacheSpace bm 1).2.store.get? y.toNat = some rlc := by
    have h2 : (freeCacheSpace bm 1).2.store.get? y.toNat = bm.store.get? y.toNat := hun.2
    rw [h2, hst]
  unfold bmGet
  rw [bmGetRow_miss bm y rlc hb hnone hok hst1]
  dsimp only
  rw [freeCacheSpace_width, hdec]

theorem bmSet_ok_track (bm : Bitmap) (x y : Int) (v : Nat) (hinv : BmInv bm)
    (hx0 : 0 ≤ x) (hxw : x < (bm.width : Int)) (hv : v = 0 ∨ v = 1)
    (hset : (bmSet bm x y v).1 = .ok ()) :
    Tracked (bmSet bm x y v).2 x y v ∧ 1 ≤ bm.cacheMaxItems := by
  rcases hres : (bmGetRow bm y).1 with err | data
  · rw [bmSet_err bm x y v err hres] at hset
    cases hset
  · have hcap := bmGetRow_ok_cap bm y data hinv hres
    obtain ⟨e, hc, hdata⟩ := bmGetRow_ok_cached bm y data hinv hres
    refine ⟨?_, hcap⟩
    rw [bmSet_ok bm x y v data e hres hc]
    unfold Tracked
    dsimp only
    rw [mapGet_mapUpd_self _ _ _ e hc]
    refine ⟨rfl, ?_⟩
    have hlen : data.length = bm.width := by
      have h3 := (bmGetRow_inv bm y hinv).2.2.2.2.1 (y, e) (mapGet_mem _ _ _ hc)
      dsimp only at h3
      rw [hdata, (bmGetRow_fields bm y).1] at h3
      exact h3
    have hxl : x.toNat < data.length := by
      rw [hlen]
      omega
    show tyGet (tySet data x v) x = some v
    rw [tyGet_tySet_self data x v hx0 hxl]
    congr 1
    rcases hv with rfl | rfl <;> rfl

/-- C5: if set(x, y, v) succeeds with a bit value v at valid coordinates, and
any sequence of operations avoiding row y (reads and writes of other rows,
including writes of bit values, and flushChanges calls) leaves row y no
longer cached, then a fresh get(x, y) returns the mutated value v: every
path by which a dirty row leaves the cache re-encodes it into the Row Store
first, and decoding the written-back encoding restores the row exactly. -/
theorem C5_write_back (bm : Bitmap) (x y : Int) (v : Nat) (ops : List Op)
    (hinv : BmInv bm) (hcb : CacheBits bm)
    (hx0 : 0 ≤ x) (hxw : x < (bm.width : Int))
    (hy0 : 0 ≤ y) (hyh : y < (bm.height : Int))
    (hv : v = 0 ∨ v = 1)
    (hset : (bmSet bm x y v).1 = .ok ())
    (hops : ∀ op ∈ ops, OpAvoids op y)
    (hun : mapGet (runOps (bmSet bm x y v).2 ops).cache y = none) :
    (bmGet (runOps (bmSet bm x y v).2 ops) x y).1 = .ok (some v) := by
  obtain ⟨htr1, hcap⟩ := bmSet_ok_track bm x y v hinv hx0 hxw hv hset
  have hinv1 : BmInv (bmSet bm x y v).2 := bmSet_inv bm x y v hinv
  have hcb1 : CacheBits (bmSet bm x y v).2 := bmSet_cacheBits bm x y v hinv hcb hv
  obtain ⟨hw1, hh1, hcap1, hsl1, hrows1⟩ := bmSet_fields bm x y v
  have hyh1 : y.toNat < (bmSet bm x y v).2.height := by
    rw [hh1]
    omega
  obtain ⟨hinvF, hcbF, htrF, hwF, hhF, hcapF⟩ :=
    runOps_inv_track x y v hy0 ops (bmSet bm x y v).2 hinv1 hcb1 hyh1 hops htr1
  refine bmGet_tracked _ x y v hinvF hy0 ?_ ?_ hun htrF
  · rw [hhF, hh1]
    exact hyh
  · rw [hcapF, hcap1]
    exact hcap

theorem C5_write_back_witness :
    (bmGet (runOps (bmSet (mkBitmapRaw 4 10 1) 0 5 1).2 [Op.get 0 0]) 0 5).1 =
      .ok (some 1) := by
  refine C5_write_back (mkBitmapRaw 4 10 1) 0 5 1 [Op.get 0 0] (by decide) (by decide)
    (by decide) (by decide) (by decide) (by decide) (by decide) rfl ?_ rfl
  intro op hop
  rcases List.mem_singleton.mp hop with rfl
  show (0 : Int) ≠ 5
  decide

theorem mkBitmapRaw_inv (w h : Nat) (c : ℚ) : BmInv (mkBitmapRaw w h c) := by
  refine ⟨rfl, List.nodup_nil, ?_, ?_, ?_, Or.inr rfl⟩
  · exact List.length_replicate _ _
  · intro k hk
    cases hk
  · intro p hp
    cases hp

theorem mkBitmapRaw_cacheBits (w h : Nat) (c : ℚ) : CacheBits (mkBitmapRaw w h c) := by
  intro p hp
  cases hp

theorem bmGetRow_len_le (bm : Bitmap) (y : Int) (N : Nat)
    (hcap : bm.cacheMaxItems = (N : ℚ)) (hlen : bm.cacheRows.length ≤ N) :
    (bmGetRow bm y).2.cacheRows.length ≤ N := by
  by_cases hb : y < 0 ∨ (bm.height : Int) < y
  · unfold bmGetRow
    rw [if_pos hb]
    exact hlen
  · rcases hc : mapGet bm.cache y with _ | e
    · rcases hres : (freeCacheSpace bm 1).1 with err | u
      · rw [bmGetRow_miss_err bm y err hb hc hres]
        exact le_trans (fcsGo_rows_len 1 _ bm) hlen
      · cases u
        rcases hst : (freeCacheSpace bm 1).2.store.get? y.toNat with _ | rlc
        · rw [bmGetRow_miss_stnone bm y hb hc hres hst]
          exact le_trans (fcsGo_rows_len 1 _ bm) hlen
        · rw [bmGetRow_miss bm y rlc hb hc hres hst]
          dsimp only
          rw [List.length_append, List.length_singleton]
          have h2 := freeCacheSpace_ok_le bm 1 (by rw [hres])
          rw [hcap] at h2
          exact_mod_cast h2
    · rw [bmGetRow_hit bm y e hb hc]
      exact hlen

theorem applyOp_len_le (bm : Bitmap) (op : Op) (N : Nat)
    (hcap : bm.cacheMaxItems = (N : ℚ)) (hlen : bm.cacheRows.length ≤ N) :
    (applyOp bm op).cacheRows.length ≤ N := by
  cases op with
  | get x y =>
    simp only [applyOp]
    rw [bmGet_state]
    exact bmGetRow_len_le bm y N hcap hlen
  | set x y v =>
    show (bmSet bm x y v).2.cacheRows.length ≤ N
    rw [(bmSet_fields bm x y v).2.2.2.2]
    exact bmGetRow_len_le bm y N hcap hlen
  | flush =>
    show (bmFlushChanges bm).2.cacheRows.length ≤ N
    rw [(bmFlushChanges_state bm).2.1]
    exact hlen

theorem runOps_cap_le (N : Nat) :
    ∀ (ops : List Op) (bm : Bitmap), BmInv bm → bm.cacheMaxItems = (N : ℚ) →
    bm.cacheRows.length ≤ N →
    BmInv (runOps bm ops) ∧ (runOps bm ops).cacheRows.length ≤ N := by
  intro ops
  induction ops with
  | nil => intro bm h1 _ h3; exact ⟨h1, h3⟩
  | cons op rest ih =>
    intro bm h1 h2 h3
    have hstep : runOps bm (op :: rest) = runOps (applyOp bm op) rest := by
      unfold runOps
      rw [List.foldl_cons]
    rw [hstep]
    exact ih (applyOp bm op) (applyOp_inv bm op h1)
      (by rw [(applyOp_fields bm op).2.2.1]; exact h2)
      (applyOp_len_le bm op N h2 h3)

/-- C7: for a bitmap constructed with a positive integer cacheMaxItems N,
after any finite sequence of operations the Row Cache holds at most N
entries, both counted as cache object entries and as queued row ids. -/
theorem C7_capacity (w h N : Nat) (hN : 0 < N) (ops : List Op) :
    (runOps (mkBitmapRaw w h (N : ℚ)) ops).cache.length ≤ N ∧
    (runOps (mkBitmapRaw w h (N : ℚ)) ops).cacheRows.length ≤ N := by
  obtain ⟨hinv, hlen⟩ := runOps_cap_le N ops (mkBitmapRaw w h (N : ℚ))
    (mkBitmapRaw_inv w h _) rfl (by simp [mkBitmapRaw])
  refine ⟨?_, hlen⟩
  have hkeys := hinv.1
  have : (runOps (mkBitmapRaw w h (N : ℚ)) ops).cache.length =
      (runOps (mkBitmapRaw w h (N : ℚ)) ops).cacheRows.length := by
    rw [← hkeys, List.length_map]
  rw [this]
  exact hlen

theorem C7_capacity_witness :
    (runOps (mkBitmapRaw 4 10 ((1 : Nat) : ℚ)) [Op.get 0 0, Op.get 0 1]).cache.length ≤ 1 ∧
    (runOps (mkBitmapRaw 4 10 ((1 : Nat) : ℚ)) [Op.get 0 0, Op.get 0 1]).cacheRows.length ≤ 1 :=
  C7_capacity 4 10 1 (by decide) [Op.get 0 0, Op.get 0 1]

theorem bmGetRow_ok_of_valid (bm : Bitmap) (y : Int) (hinv : BmInv bm)
    (hcap : 1 ≤ bm.cacheMaxItems) (hy0 : 0 ≤ y) (hyh : y < (bm.height : Int)) :
    ∃ data, (bmGetRow bm y).1 = .ok data := by
  have hb : ¬ (y < 0 ∨ (bm.height : Int) < y) := by
    push_neg
    omega
  rcases hc : mapGet bm.cache y with _ | e
  · have hok : (freeCacheSpace bm 1).1 = .ok () :=
      freeCacheSpace_ok bm 1 hinv (by rw [Nat.cast_one]; exact hcap)
    rcases hst : (freeCacheSpace bm 1).2.store.get? y.toNat with _ | rlc
    · exfalso
      rw [List.get?_eq_none, freeCacheSpace_storeLen, hinv.2.2.1] at hst
      omega
    · exact ⟨_, by rw [bmGetRow_miss bm y rlc hb hc hok hst]⟩
  · exact ⟨e.data, by rw [bmGetRow_hit bm y e hb hc]⟩

theorem bmSet_ok_of_valid (bm : Bitmap) (x y : Int) (v : Nat) (hinv : BmInv bm)
    (hcap : 1 ≤ bm.cacheMaxItems) (hy0 : 0 ≤ y) (hyh : y < (bm.height : Int)) :
    (bmSet bm x y v).1 = .ok () := by
  obtain ⟨data, hres⟩ := bmGetRow_ok_of_valid bm y hinv hcap hy0 hyh
  obtain ⟨e, hc, _⟩ := bmGetRow_ok_cached bm y data hinv hres
  rw [bmSet_ok bm x y v data e hres hc]

/-- C10 (amended): on a well-formed bitmap whose cache capacity is at least
one, with valid coordinates and a bit value, a get performed immediately
after set returns the value just written, before any flush or eviction has
committed it to the Row Store.  With the default capacity of a bitmap of
height below 20 the premise fails: every access throws (see the
counterexample). -/
theorem C10_get_after_set (bm : Bitmap) (x y : Int) (v : Nat)
    (hinv : BmInv bm) (hcap : 1 ≤ bm.cacheMaxItems)
    (hx0 : 0 ≤ x) (hxw : x < (bm.width : Int))
    (hy0 : 0 ≤ y) (hyh : y < (bm.height : Int))
    (hv : v = 0 ∨ v = 1) :
    (bmGet (bmSet bm x y v).2 x y).1 = .ok (some v) := by
  have hset := bmSet_ok_of_valid bm x y v hinv hcap hy0 hyh
  obtain ⟨ht2, _⟩ := bmSet_ok_track bm x y v hinv hx0 hxw hv hset
  have hinv2 := bmSet_inv bm x y v hinv
  obtain ⟨hw2, hh2, hcap2, hsl2, hr2⟩ := bmSet_fields bm x y v
  rcases hc2 : mapGet (bmSet bm x y v).2.cache y with _ | E
  · refine bmGet_tracked _ x y v hinv2 hy0 ?_ ?_ hc2 ht2
    · rw [hh2]
      exact hyh
    · rw [hcap2]
      exact hcap
  · unfold Tracked at ht2
    rw [hc2] at ht2
    have hb2 : ¬ (y < 0 ∨ ((bmSet bm x y v).2.height : Int) < y) := by
      rw [hh2]
      push_neg
      omega
    unfold bmGet
    rw [bmGetRow_hit _ y E hb2 hc2]
    dsimp only
    rw [ht2.2]

/-- C10 counterexample: the claim quantifies over every bitmap, but a bitmap
built with the default cacheMaxItems at height 10 has capacity 0.5, so the
set call itself throws a TypeError inside freeCacheSpace (shift of an empty
queue) and the following get throws the same way instead of returning the
written bit. -/
theorem C10_counterexample :
    mkBitmap 4 10 none = .ok (mkBitmapRaw 4 10 (defaultCacheMax 10)) ∧
    (bmSet (mkBitmapRaw 4 10 (defaultCacheMax 10)) 0 0 1).1 = .error .typeError ∧
    (bmGet (bmSet (mkBitmapRaw 4 10 (defaultCacheMax 10)) 0 0 1).2 0 0).1 =
      .error .typeError :=
  ⟨rfl, rfl, rfl⟩

theorem C10_get_after_set_witness :
    (bmGet (bmSet (mkBitmapRaw 4 10 1) 1 2 1).2 1 2).1 = .ok (some 1) :=
  C10_get_after_set (mkBitmapRaw 4 10 1) 1 2 1 (by decide) (by decide) (by decide)
    (by decide) (by decide) (by decide) (by decide)

theorem bmGet_ioor (bm : Bitmap) (x y : Int) :
    (bmGet bm x y).1 = .error .indexOutOfRange ↔
      (bmGetRow bm y).1 = .error .indexOutOfRange := by
  unfold bmGet
  rcases h : bmGetRow bm y with ⟨res, bm1⟩
  cases res with
  | error err => simp
  | ok data => simp

theorem bmSet_ioor (bm : Bitmap) (x y : Int) (v : Nat) :
    (bmSet bm x y v).1 = .error .indexOutOfRange ↔
      (bmGetRow bm y).1 = .error .indexOutOfRange := by
  unfold bmSet
  rcases h : bmGetRow bm y with ⟨res, bm1⟩
  cases res with
  | error err => simp
  | ok data =>
    dsimp only
    rcases hc : mapGet bm1.cache y with _ | e <;> simp

/-- C3 (amended): get and set fail with IndexOutOfRange exactly when the row
index y is negative or strictly greater than height (so the inclusive upper
bound y = height passes the row check); the column index x is never
validated, hence no bounds failure ever depends on x, and get(width, 0)
returns undefined instead of failing (see the counterexample). -/
theorem C3_bounds :
    (∀ (bm : Bitmap) (x y : Int),
      ((bmGet bm x y).1 = .error .indexOutOfRange ↔ y < 0 ∨ (bm.height : Int) < y)) ∧
    (∀ (bm : Bitmap) (x y : Int) (v : Nat),
      ((bmSet bm x y v).1 = .error .indexOutOfRange ↔ y < 0 ∨ (bm.height : Int) < y)) :=
  ⟨fun bm x y => (bmGet_ioor bm x y).trans (bmGetRow_ioor_iff bm y),
   fun bm x y v => (bmSet_ioor bm x y v).trans (bmGetRow_ioor_iff bm y)⟩

/-- C3 counterexample: on a width 8 bitmap, get(8, 0) does not fail with
IndexOutOfRange as the claim states; it succeeds and returns undefined,
because the column index is never checked. -/
theorem C3_counterexample :
    mkBitmap 8 1 (some 5) = .ok (mkBitmapRaw 8 1 5) ∧
    (bmGet (mkBitmapRaw 8 1 5) 8 0).1 = .ok none :=
  ⟨rfl, rfl⟩

/-- C4 (amended): the constructor applies no floor of one: a nonzero
configured cacheMaxItems is used exactly as given, and an absent (or zero)
option defaults to height * 0.05 with no minimum, so the capacity is not
max(1, configured value) and can be below one. -/
theorem C4_capacity (w h : Int) (c : ℚ) (hw : 0 < w) (hh : 0 < h) (hc : c ≠ 0) :
    (mkBitmap w h (some c)).map Bitmap.cacheMaxItems = .ok c ∧
    (mkBitmap w h none).map Bitmap.cacheMaxItems = .ok ((h.toNat : ℚ) * (5 / 100)) := by
  have hguard : ¬ (¬ (0 < h) ∨ ¬ (0 < w)) := by
    push_neg
    exact ⟨hh, hw⟩
  constructor
  · unfold mkBitmap
    rw [if_neg hguard]
    simp only [Except.map]
    rw [if_pos hc]
    rfl
  · unfold mkBitmap
    rw [if_neg hguard]
    simp only [Except.map]
    rw [show (mkBitmapRaw w.toNat h.toNat (defaultCacheMax h.toNat)).cacheMaxItems =
      defaultCacheMax h.toNat from rfl, defaultCacheMax_eq]

/-- C4 counterexample: constructed with the default at height 10, the
capacity is exactly one half, strictly below the floor of one the claim
asserts. -/
theorem C4_counterexample :
    mkBitmap 4 10 none = .ok (mkBitmapRaw 4 10 (defaultCacheMax 10)) ∧
    (mkBitmapRaw 4 10 (defaultCacheMax 10)).cacheMaxItems = mkRat 1 2 ∧
    ¬ (1 ≤ (mkBitmapRaw 4 10 (defaultCacheMax 10)).cacheMaxItems) :=
  ⟨rfl, rfl, by decide⟩

theorem C4_capacity_witness :
    (mkBitmap 4 10 (some 3)).map Bitmap.cacheMaxItems = .ok 3 ∧
    (mkBitmap 4 10 none).map Bitmap.cacheMaxItems = .ok (((10 : Int).toNat : ℚ) * (5 / 100)) :=
  C4_capacity 4 10 3 (by decide) (by decide) (by decide)

/-- C2: evaluation of flushChanges at the failing inputs.  With rows 0..len-1
not all cached (here only row 5 is cached) the loop reads this.cache[0], an
absent entry, and throws a TypeError.  In the benign case (row 0 cached
dirty) the row is written back but its modified flag is left set. -/
theorem C2_flush_evaluation :
    (bmFlushChanges (bmSet (mkBitmapRaw 4 10 2) 0 5 1).2).1 = .error .typeError ∧
    (bmFlushChanges (bmSet (mkBitmapRaw 4 10 2) 0 0 1).2).2.cache =
      [(0, ⟨0, true, [1, 0, 0, 0]⟩)] ∧
    (bmFlushChanges (bmSet (mkBitmapRaw 4 10 2) 0 0 1).2).2.store.get? 0 =
      some (rlcEncode [1, 0, 0, 0]) :=
  ⟨rfl, rfl, rfl⟩

/-- C8: the trailing push tests rowi % 2 === 0, where rowi is the final scan
position (the row length), not the number of emitted counts (the rlci
variable meant for that is never updated), so the all-ones row of length
four encodes to [0, 4, 0], an odd number of counts. -/
theorem C8_odd_count :
    rlcEncode [1, 1, 1, 1] = [0, 4, 0] ∧ (rlcEncode [1, 1, 1, 1]).length % 2 = 1 :=
  ⟨by decide, by decide⟩

/-- C1: for every width and every dense row of bit values of that width,
decoding the encoding reproduces the row exactly, including rows whose runs
exceed maxRunLength. -/
theorem C1_roundtrip (row : List Nat) (hb : ∀ b ∈ row, b = 0 ∨ b = 1) :
    rlcDecode row.length (rlcEncode row) = row :=
  rlc_roundtrip row hb

theorem C1_roundtrip_witness :
    rlcDecode ([0, 0, 0, 1, 0, 0, 0, 0] : List Nat).length
      (rlcEncode [0, 0, 0, 1, 0, 0, 0, 0]) = [0, 0, 0, 1, 0, 0, 0, 0] :=
  C1_roundtrip [0, 0, 0, 1, 0, 0, 0, 0] (by decide)

/-- C9: every run count emitted by rlcEncode is at most maxRunLength
(65000), overlong runs being split into sub-runs separated by zero-length
opposite-color runs, and such rows decode back without truncation. -/
theorem C9_run_bound (row : List Nat) (hb : ∀ b ∈ row, b = 0 ∨ b = 1) :
    (∀ c ∈ rlcEncode row, c ≤ maxRunLength) ∧
    rlcDecode row.length (rlcEncode row) = row :=
  ⟨rlcEncode_bound row, rlc_roundtrip row hb⟩

theorem C9_run_bound_witness :
    (∀ c ∈ rlcEncode [1, 0, 1, 1], c ≤ maxRunLength) ∧
    rlcDecode ([1, 0, 1, 1] : List Nat).length (rlcEncode [1, 0, 1, 1]) = [1, 0, 1, 1] :=
  C9_run_bound [1, 0, 1, 1] (by decide)

theorem runOps_append (bm : Bitmap) (a b : List Op) :
    runOps bm (a ++ b) = runOps (runOps bm a) b := by
  unfold runOps
  rw [List.foldl_append]

theorem freeCacheSpace_noop (bm : Bitmap) (n : Nat)
    (h : ¬ (((bm.cacheRows.length + n : Nat) : ℚ) > bm.cacheMaxItems)) :
    freeCacheSpace bm n = (.ok (), bm) := by
  unfold freeCacheSpace
  rw [freeCacheSpaceGo, if_neg h]

theorem store_lookup (bm : Bitmap) (y : Int) (hinv : BmInv bm) (hy : 0 ≤ y)
    (hyh : y < (bm.height : Int)) : ∃ rlc, bm.store.get? y.toNat = some rlc := by
  rcases h : bm.store.get? y.toNat with _ | rlc
  · rw [List.get?_eq_none, hinv.2.2.1] at h
    omega
  · exact ⟨rlc, rfl⟩

theorem bmGetRow_insert (bm : Bitmap) (y : Int) (hb : 0 ≤ y ∧ y < (bm.height : Int))
    (hnc : mapGet bm.cache y = none)
    (hroom : ¬ (((bm.cacheRows.length + 1 : Nat) : ℚ) > bm.cacheMaxItems))
    (rlc : List Nat) (hst : bm.store.get? y.toNat = some rlc) :
    bmGetRow bm y = (.ok (rlcDecode bm.width rlc),
      { bm with cache := bm.cache ++ [(y, ⟨y, false, rlcDecode bm.width rlc⟩)],
                cacheRows := bm.cacheRows ++ [y] }) := by
  have hb2 : ¬ (y < 0 ∨ (bm.height : Int) < y) := by
    push_neg
    omega
  have hfc := freeCacheSpace_noop bm 1 hroom
  have hok : (freeCacheSpace bm 1).1 = .ok () := by rw [hfc]
  have hst1 : (freeCacheSpace bm 1).2.store.get? y.toNat = some rlc := by
    rw [hfc]
    exact hst
  have h2 := bmGetRow_miss bm y rlc hb2 hnc hok hst1
  rw [hfc] at h2
  exact h2

theorem runOps_inserts (N : Nat) :
    ∀ (rows : List Int) (bm : Bitmap), BmInv bm →
    bm.cacheMaxItems = (N : ℚ) →
    rows.Nodup → (∀ r ∈ rows, r ∉ bm.cacheRows) →
    (∀ r ∈ rows, 0 ≤ r ∧ r < (bm.height : Int)) →
    bm.cacheRows.length + rows.length ≤ N →
    (runOps bm (rows.map (Op.get 0))).cacheRows = bm.cacheRows ++ rows ∧
    BmInv (runOps bm (rows.map (Op.get 0))) ∧
    (runOps bm (rows.map (Op.get 0))).height = bm.height ∧
    (runOps bm (rows.map (Op.get 0))).cacheMaxItems = bm.cacheMaxItems := by
  intro rows
  induction rows with
  | nil => intro bm h1 _ _ _ _ _; exact ⟨by simp [runOps], h1, rfl, rfl⟩
  | cons r rest ih =>
    intro bm hinv hcap hnodup hnotin hvalid hlen
    have hb : 0 ≤ r ∧ r < (bm.height : Int) := hvalid r (List.mem_cons_self _ _)
    have hnc : mapGet bm.cache r = none := by
      rw [mapGet_eq_none_iff, hinv.1]
      exact hnotin r (List.mem_cons_self _ _)
    have hroom : ¬ (((bm.cacheRows.length + 1 : Nat) : ℚ) > bm.cacheMaxItems) := by
      rw [hcap]
      push_neg
      have h2 : bm.cacheRows.length + 1 ≤ N := by
        simp only [List.length_cons] at hlen
        omega
      exact_mod_cast h2
    obtain ⟨rlc, hst⟩ := store_lookup bm r hinv hb.1 hb.2
    have hstep := bmGetRow_insert bm r hb hnc hroom rlc hst
    have hrun : runOps bm ((r :: rest).map (Op.get 0)) =
        runOps (bmGetRow bm r).2 (rest.map (Op.get 0)) := by
      show runOps bm (Op.get 0 r :: rest.map (Op.get 0)) = _
      unfold runOps
      rw [List.foldl_cons]
      congr 1
      show (bmGet bm 0 r).2 = _
      rw [bmGet_state]
    have hinv2 := bmGetRow_inv bm r hinv
    rw [hstep] at hrun hinv2
    rw [hrun]
    have ih2 := ih { bm with cache := bm.cache ++ [(r, ⟨r, false, rlcDecode bm.width rlc⟩)], cacheRows := bm.cacheRows ++ [r] } hinv2 hcap
      ((List.nodup_cons.mp hnodup).2)
      (by
        intro r2 hr2
        dsimp only
        rw [List.mem_append]
        push_neg
        refine ⟨hnotin r2 (List.mem_cons_of_mem _ hr2), ?_⟩
        intro hx
        simp only [List.mem_singleton] at hx
        subst hx
        exact (List.nodup_cons.mp hnodup).1 hr2)
      (by
        intro r2 hr2
        exact hvalid r2 (List.mem_cons_of_mem _ hr2))
      (by
        dsimp only
        rw [List.length_append, List.length_singleton]
        simp only [List.length_cons] at hlen
        omega)
    refine ⟨?_, ih2.2.1, ih2.2.2.1, ih2.2.2.2⟩
    rw [ih2.1]
    dsimp only
    rw [List.append_assoc, List.singleton_append]

theorem runOps_hits :
    ∀ (mid : List Op) (bm : Bitmap), BmInv bm →
    (∀ op ∈ mid, OpTargets op bm.cacheRows) →
    (∀ k ∈ bm.cacheRows, 0 ≤ k ∧ k < (bm.height : Int)) →
    (runOps bm mid).cacheRows = bm.cacheRows ∧
    BmInv (runOps bm mid) ∧
    (runOps bm mid).height = bm.height ∧
    (runOps bm mid).cacheMaxItems = bm.cacheMaxItems := by
  intro mid
  induction mid with
  | nil => intro bm h1 _ _; exact ⟨rfl, h1, rfl, rfl⟩
  | cons op rest ih =>
    intro bm hinv hops hkb
    have hstep : runOps bm (op :: rest) = runOps (applyOp bm op) rest := by
      unfold runOps
      rw [List.foldl_cons]
    rw [hstep]
    have hrows : (applyOp bm op).cacheRows = bm.cacheRows := by
      cases op with
      | flush => exact absurd (hops _ (List.mem_cons_self _ _)) (by simp [OpTargets])
      | get x2 y2 =>
        have hy2 : y2 ∈ bm.cacheRows := hops _ (List.mem_cons_self _ _)
        have hbd := hkb y2 hy2
        have hb2 : ¬ (y2 < 0 ∨ (bm.height : Int) < y2) := by
          push_neg
          omega
        have hmem : y2 ∈ bm.cache.map Prod.fst := by
          rw [hinv.1]
          exact hy2
        rcases hc : mapGet bm.cache y2 with _ | e
        · exact absurd hmem ((mapGet_eq_none_iff _ _).mp hc)
        · simp only [applyOp]
          rw [bmGet_state, bmGetRow_hit bm y2 e hb2 hc]
      | set x2 y2 v2 =>
        have hy2 : y2 ∈ bm.cacheRows := hops _ (List.mem_cons_self _ _)
        have hbd := hkb y2 hy2
        have hb2 : ¬ (y2 < 0 ∨ (bm.height : Int) < y2) := by
          push_neg
          omega
        have hmem : y2 ∈ bm.cache.map Prod.fst := by
          rw [hinv.1]
          exact hy2
        rcases hc : mapGet bm.cache y2 with _ | e
        · exact absurd hmem ((mapGet_eq_none_iff _ _).mp hc)
        · show (bmSet bm x2 y2 v2).2.cacheRows = _
          rw [(bmSet_fields bm x2 y2 v2).2.2.2.2, bmGetRow_hit bm y2 e hb2 hc]
    obtain ⟨hw2, hh2, hcap2, _⟩ := applyOp_fields bm op
    have ih2 := ih (applyOp bm op) (applyOp_inv bm op hinv)
      (by rw [hrows]; exact fun op2 h2 => hops op2 (List.mem_cons_of_mem _ h2))
      (by rw [hrows, hh2]; exact hkb)
    refine ⟨?_, ih2.2.1, ?_, ?_⟩
    · rw [ih2.1, hrows]
    · rw [ih2.2.2.1, hh2]
    · rw [ih2.2.2.2, hcap2]

theorem freeCacheSpace_evict_one (bm : Bitmap) (r0 : Int) (rest : List Int)
    (row : CacheEntry) (hrows : bm.cacheRows = r0 :: rest)
    (hget : mapGet bm.cache r0 = some row)
    (hcond : ((bm.cacheRows.length + 1 : Nat) : ℚ) > bm.cacheMaxItems)
    (hstop : ¬ (((rest.length + 1 : Nat) : ℚ) > bm.cacheMaxItems)) :
    freeCacheSpace bm 1 = (.ok (), { bm with cacheRows := rest, cache := mapDel bm.cache r0, store := if row.modified then bm.store.set r0.toNat (rlcEncode row.data) else bm.store }) := by
  unfold freeCacheSpace
  rw [freeCacheSpaceGo, if_pos hcond]
  simp only [hrows, List.length_cons, hget]
  by_cases hmod : row.modified
  · rw [if_pos hmod, if_pos hmod, freeCacheSpaceGo]
    dsimp only
    rw [if_neg hstop]
  · rw [if_neg hmod, if_neg hmod, freeCacheSpaceGo]
    dsimp only
    rw [if_neg hstop]

theorem bmGet_evict_access (bm : Bitmap) (r0 rN : Int) (rest : List Int)
    (row : CacheEntry) (hinv : BmInv bm)
    (hrows : bm.cacheRows = r0 :: rest)
    (hget : mapGet bm.cache r0 = some row)
    (hcond : ((bm.cacheRows.length + 1 : Nat) : ℚ) > bm.cacheMaxItems)
    (hstop : ¬ (((rest.length + 1 : Nat) : ℚ) > bm.cacheMaxItems))
    (hb : 0 ≤ rN ∧ rN < (bm.height : Int))
    (hnotin : rN ∉ bm.cacheRows) :
    (bmGet bm 0 rN).2.cacheRows = rest ++ [rN] ∧
    mapGet (bmGet bm 0 rN).2.cache r0 = none := by
  have hfc := freeCacheSpace_evict_one bm r0 rest row hrows hget hcond hstop
  have hb2 : ¬ (rN < 0 ∨ (bm.height : Int) < rN) := by
    push_neg
    omega
  have hnc : mapGet bm.cache rN = none := by
    rw [mapGet_eq_none_iff, hinv.1]
    exact hnotin
  have hok : (freeCacheSpace bm 1).1 = .ok () := by rw [hfc]
  have hstlen : (freeCacheSpace bm 1).2.store.length = bm.height := by
    rw [freeCacheSpace_storeLen, hinv.2.2.1]
  obtain ⟨rlc, hst⟩ : ∃ rlc, (freeCacheSpace bm 1).2.store.get? rN.toNat = some rlc := by
    rcases h : (freeCacheSpace bm 1).2.store.get? rN.toNat with _ | rlc
    · rw [List.get?_eq_none, hstlen] at h
      omega
    · exact ⟨rlc, rfl⟩
  rw [bmGet_state, bmGetRow_miss bm rN rlc hb2 hnc hok hst]
  have hr0N : rN ≠ r0 := by
    intro hx
    subst hx
    exact hnotin (by rw [hrows]; exact List.mem_cons_self _ _)
  constructor
  · dsimp only
    rw [hfc]
  · dsimp only
    rw [mapGet_append_single_ne _ _ _ _ hr0N, hfc]
    dsimp only
    exact mapGet_mapDel_self _ _

/-- C6: eviction is strictly insertion ordered.  On a fresh bitmap with
positive integer capacity N, reading rows r0, r1, ..., r(N-1) in order,
then performing any reads or writes confined to those already cached rows
(so r0 may be read or written again), and then accessing a further distinct
row rN, evicts r0 first: afterwards the queue is r1, ..., r(N-1), rN and r0
is no longer cached. -/
theorem C6_fifo_eviction (w h N : Nat) (r0 : Int) (rest : List Int) (rN : Int)
    (mid : List Op) (hN : rest.length + 1 = N)
    (hnodup : (r0 :: (rest ++ [rN])).Nodup)
    (hvalid : ∀ r ∈ r0 :: (rest ++ [rN]), 0 ≤ r ∧ r < (h : Int))
    (hmid : ∀ op ∈ mid, OpTargets op (r0 :: rest)) :
    (runOps (mkBitmapRaw w h (N : ℚ))
        (((r0 :: rest).map (Op.get 0) ++ mid) ++ [Op.get 0 rN])).cacheRows =
      rest ++ [rN] ∧
    mapGet (runOps (mkBitmapRaw w h (N : ℚ))
        (((r0 :: rest).map (Op.get 0) ++ mid) ++ [Op.get 0 rN])).cache r0 = none := by
  have hnodup1 : (r0 :: rest).Nodup := by
    rw [List.nodup_cons] at hnodup ⊢
    refine ⟨fun hx => hnodup.1 (List.mem_append_left _ hx), ?_⟩
    exact (List.nodup_append.mp hnodup.2).1
  have hvalid1 : ∀ r ∈ r0 :: rest, 0 ≤ r ∧ r < (h : Int) := by
    intro r hr
    refine hvalid r ?_
    rcases List.mem_cons.mp hr with rfl | hr2
    · exact List.mem_cons_self _ _
    · exact List.mem_cons_of_mem _ (List.mem_append_left _ hr2)
  have hrNnotin : rN ∉ r0 :: rest := by
    intro hx
    rcases List.mem_cons.mp hx with rfl | hx2
    · exact (List.nodup_cons.mp hnodup).1 (List.mem_append_right _ (List.mem_singleton.mpr rfl))
    · have h2 := (List.nodup_append.mp (List.nodup_cons.mp hnodup).2).2.2
      exact h2 hx2 (List.mem_singleton.mpr rfl)
  rw [runOps_append, runOps_append]
  have hins := runOps_inserts N (r0 :: rest) (mkBitmapRaw w h (N : ℚ))
    (mkBitmapRaw_inv w h _) rfl hnodup1
    (by intro r _ hx; cases hx)
    (by intro r hr; exact hvalid1 r hr)
    (by show ([] : List Int).length + (r0 :: rest).length ≤ N
        simp only [List.length_nil, List.length_cons]
        omega)
  obtain ⟨hrows1, hinv1, hh1, hcap1⟩ := hins
  rw [show (mkBitmapRaw w h (N : ℚ)).cacheRows ++ (r0 :: rest) = r0 :: rest from rfl] at hrows1
  have hhits := runOps_hits mid (runOps (mkBitmapRaw w h (N : ℚ)) ((r0 :: rest).map (Op.get 0)))
    hinv1
    (by rw [hrows1]; exact hmid)
    (by rw [hrows1, hh1]; exact hvalid1)
  obtain ⟨hrows2, hinv2, hh2, hcap2⟩ := hhits
  set bm2 := runOps (runOps (mkBitmapRaw w h (N : ℚ)) ((r0 :: rest).map (Op.get 0))) mid with hbm2
  have hrows2b : bm2.cacheRows = r0 :: rest := by rw [hrows2, hrows1]
  have hcap2b : bm2.cacheMaxItems = (N : ℚ) := by rw [hcap2, hcap1]; rfl
  have hh2b : bm2.height = h := by rw [hh2, hh1]; rfl
  have hr0mem : r0 ∈ bm2.cache.map Prod.fst := by
    rw [hinv2.1, hrows2b]
    exact List.mem_cons_self _ _
  rcases hget : mapGet bm2.cache r0 with _ | row
  · exact absurd hr0mem ((mapGet_eq_none_iff _ _).mp hget)
  · have hcond : ((bm2.cacheRows.length + 1 : Nat) : ℚ) > bm2.cacheMaxItems := by
      rw [hrows2b, hcap2b, List.length_cons, hN]
      exact_mod_cast Nat.lt_succ_self N
    have hstop : ¬ (((rest.length + 1 : Nat) : ℚ) > bm2.cacheMaxItems) := by
      rw [hcap2b, hN]
      exact lt_irrefl _
    have hbN : 0 ≤ rN ∧ rN < (bm2.height : Int) := by
      rw [hh2b]
      exact hvalid rN (List.mem_cons_of_mem _ (List.mem_append_right _ (List.mem_singleton.mpr rfl)))
    have hnotin2 : rN ∉ bm2.cacheRows := by
      rw [hrows2b]
      exact hrNnotin
    have hfin := bmGet_evict_access bm2 r0 rN rest row hinv2 hrows2b hget hcond hstop hbN hnotin2
    have hrun3 : runOps bm2 [Op.get 0 rN] = (bmGet bm2 0 rN).2 := by
      unfold runOps
      rw [List.foldl_cons]
      rfl
    rw [hrun3]
    exact hfin

theorem C6_fifo_eviction_witness :
    (runOps (mkBitmapRaw 4 10 ((2 : Nat) : ℚ))
        ((([0, 1] : List Int).map (Op.get 0) ++ [Op.get 0 0, Op.set 0 1 1]) ++ [Op.get 0 2])).cacheRows =
      ([1] : List Int) ++ [2] ∧
    mapGet (runOps (mkBitmapRaw 4 10 ((2 : Nat) : ℚ))
        ((([0, 1] : List Int).map (Op.get 0) ++ [Op.get 0 0, Op.set 0 1 1]) ++ [Op.get 0 2])).cache 0 = none := by
  refine C6_fifo_eviction 4 10 2 0 [1] 2 [Op.get 0 0, Op.set 0 1 1] (by decide) (by decide)
    (by decide) ?_
  intro op hop
  rcases List.mem_cons.mp hop with rfl | hop2
  · show (0 : Int) ∈ [0, 1]
    decide
  · rcases List.mem_singleton.mp hop2 with rfl
    show (1 : Int) ∈ [0, 1]
    decide
